import Mathlib

/-!
Verification of the segregated-free-list allocator in mm.c.

The managed region is modelled as the physical sequence of blocks lying
between the prologue and the epilogue sentinel.  Each block carries its
total size in bytes (header + payload + footer), its allocation flag and
its payload bytes (as a function from payload offset to byte value); the
boundary-tag encoding of mm.c (header word at bp-8, footer word at
bp+size-16) is represented by this sequence: GET_SIZE/GET_ALLOC of a
block's header become the block's size/alloc fields, NEXT_BLKP/PREV_BLKP
become the list neighbours, and the prologue/epilogue sentinels are the
"allocated" values used at the two ends of the list.

The segregated list table seg_list is modelled as ten lists of block
payload addresses; the PRED/SUCC links that mm.c stores inside free
payloads are represented by the order of each list.  mem_sbrk is
modelled by the brk/cap fields: growing the break past cap fails
(returns -1), exactly once and permanently observable to the caller.

Machine arithmetic: size_t values wrap at 2^64.  The wrap is made
explicit exactly where it can occur and matters: in the ALIGN macro and
the adjusted-size computation of mm_malloc, and in the csize - asize
subtraction of place.  Block sizes of blocks that physically exist in
the managed region are bounded by the region itself, so the size
additions performed by coalesce cannot wrap and are modelled on Nat.

Operations that mm.c performs on a pointer that is not a valid block
pointer (freeing an address that is not an allocated block's payload,
double free) dereference garbage and are undefined behaviour; they are
modelled as the None result of an Option-valued function.
-/

namespace MM

/-- 2^64, the modulus of size_t arithmetic. -/
def U64 : Nat := 2 ^ 64

/-- A block of the managed region: total size in bytes (header + payload
+ footer), allocation flag, and payload bytes indexed by offset from the
payload start (the block pointer bp). -/
structure Block where
  size : Nat
  alloc : Bool
  data : Nat → Nat

def defaultB : Block := ⟨0, true, fun _ => 0⟩

/-- The allocator state: heap base address, current break, the maximal
break mem_sbrk will grant, the physical block sequence, and the ten
segregated free lists (lists of payload addresses). -/
structure Heap where
  base : Nat
  brk : Nat
  cap : Nat
  blocks : List Block
  segs : List (List Nat)

def defaultH : Heap := ⟨0, 0, 0, [], []⟩

def sumSizes (l : List Block) : Nat := (l.map Block.size).sum

/-- Payload address of block i: after the 8 padding bytes, the 16-byte
prologue and the 8-byte header, the first block's payload sits at
base + 32 (mm_init), and each following block starts one size further. -/
def addrOf (s : Heap) (i : Nat) : Nat := s.base + 32 + sumSizes (s.blocks.take i)

/-- Locate the block whose payload address is a, walking the physical
sequence and accumulating addresses; returns the index and the block. -/
def findBlk (a : Nat) : Nat → List Block → Option (Nat × Block)
  | _, [] => none
  | addr, b :: rest =>
    if addr = a then some (0, b)
    else (findBlk a (addr + b.size) rest).map (fun p => (p.1 + 1, p.2))

def idxOfAddr (s : Heap) (a : Nat) : Option Nat :=
  (findBlk a (s.base + 32) s.blocks).map Prod.fst

def lookupB (s : Heap) (a : Nat) : Option Block :=
  (findBlk a (s.base + 32) s.blocks).map Prod.snd

/-- GET_SIZE(HDRP(a)) for a block payload address a. -/
def sizeAt (s : Heap) (a : Nat) : Nat := ((lookupB s a).map Block.size).getD 0

/-- get_list_index from mm.c. -/
def get_list_index (size : Nat) : Nat :=
  if size ≤ 16 then 0
  else if size ≤ 32 then 1
  else if size ≤ 64 then 2
  else if size ≤ 128 then 3
  else if size ≤ 256 then 4
  else if size ≤ 512 then 5
  else if size ≤ 1024 then 6
  else if size ≤ 2048 then 7
  else if size ≤ 4096 then 8
  else 9

/-- seg_list[i]. -/
def bucket (s : Heap) (i : Nat) : List Nat := s.segs.getD i []

/-- The insertion loop of insert_block: traverse the list until a block
of size of at least the new block's size is found, insert before it. -/
def insOrd (sz : Nat → Nat) (size a : Nat) : List Nat → List Nat
  | [] => [a]
  | c :: rest => if sz c < size then c :: insOrd sz size a rest else a :: c :: rest

/-- insert_block from mm.c: size-ascending insertion into the list at
get_list_index of the block's size. -/
def insert_block (s : Heap) (a : Nat) : Heap :=
  let size := sizeAt s a
  let idx := get_list_index size
  { s with segs := s.segs.set idx (insOrd (sizeAt s) size a (bucket s idx)) }

/-- remove_block from mm.c: unlink the block from the list of its size
class (the PRED/SUCC surgery removes exactly that one node). -/
def remove_block (s : Heap) (a : Nat) : Heap :=
  let size := sizeAt s a
  let idx := get_list_index size
  { s with segs := s.segs.set idx ((bucket s idx).erase a) }

/-- All members of all segregated lists. -/
def allSeg (s : Heap) : List Nat := s.segs.foldr (· ++ ·) []

/-- Number of occurrences of address a across the whole seg_list table. -/
def occCount (s : Heap) (a : Nat) : Nat := (s.segs.map (fun l => l.count a)).sum

def isFreeAddr (s : Heap) (a : Nat) : Bool :=
  match lookupB s a with
  | some b => !b.alloc
  | none => false

/-- size_t subtraction a - b (wraps modulo 2^64); meaningful for b < 2^64. -/
def sub64 (a b : Nat) : Nat := (a + U64 - b) % U64

/-- ALIGN from mm.c: ((x) + 15) & ~0xF on size_t.  Clearing the low four
bits of a 64-bit value equals subtracting its remainder mod 16. -/
def ALIGN (x : Nat) : Nat := (x + 15) % U64 - (x + 15) % U64 % 16

/-- The adjusted-size computation of mm_malloc: asize = 2*DSIZE when
size <= DSIZE, else ALIGN(size + DSIZE). -/
def codeAsize (size : Nat) : Nat := if size ≤ 16 then 32 else ALIGN (size + 16)

/-- Payload of a block obtained by merging a with its physical successor
b: a's payload, then the 16 bytes that held a's footer and b's header
(stale after the merge, modelled as 0), then b's payload. -/
def mergeData (a b : Block) : Nat → Nat :=
  fun k => if k < a.size - 16 then a.data k else if k < a.size then 0 else b.data (k - a.size)

/-- coalesce from mm.c, acting on block index i (the block is already
marked free by the caller).  The prologue (left of index 0) and the
epilogue (right of the last block) read as allocated.  Free neighbours
are removed from their lists first, then the headers/footers are
rewritten (list surgery), then the single result is inserted once. -/
def coalesce (s : Heap) (i : Nat) : Heap × Nat :=
  let n := s.blocks.length
  let bi := s.blocks.getD i defaultB
  let prev := s.blocks.getD (i - 1) defaultB
  let next := s.blocks.getD (i + 1) defaultB
  let prev_alloc : Bool := if i = 0 then true else prev.alloc
  let next_alloc : Bool := if i + 1 < n then next.alloc else true
  let s1 := if prev_alloc then s else remove_block s (addrOf s (i - 1))
  let s2 := if next_alloc then s1 else remove_block s1 (addrOf s (i + 1))
  if prev_alloc && next_alloc then
    (insert_block s2 (addrOf s i), addrOf s i)
  else if prev_alloc && !next_alloc then
    let merged : Block := ⟨bi.size + next.size, false, mergeData bi next⟩
    let s3 := { s2 with blocks := s.blocks.take i ++ [merged] ++ s.blocks.drop (i + 2) }
    (insert_block s3 (addrOf s i), addrOf s i)
  else if !prev_alloc && next_alloc then
    let merged : Block := ⟨prev.size + bi.size, false, mergeData prev bi⟩
    let s3 := { s2 with blocks := s.blocks.take (i - 1) ++ [merged] ++ s.blocks.drop (i + 1) }
    (insert_block s3 (addrOf s (i - 1)), addrOf s (i - 1))
  else
    let m1 : Block := ⟨prev.size + bi.size, false, mergeData prev bi⟩
    let merged : Block := ⟨m1.size + next.size, false, mergeData m1 next⟩
    let s3 := { s2 with blocks := s.blocks.take (i - 1) ++ [merged] ++ s.blocks.drop (i + 2) }
    (insert_block s3 (addrOf s (i - 1)), addrOf s (i - 1))

/-- The even word count rounding of extend_heap. -/
def evenWords (words : Nat) : Nat := if words % 2 = 1 then words + 1 else words

/-- extend_heap from mm.c: request evenWords * WSIZE bytes from
mem_sbrk; on failure return NULL with nothing written; on success the
new span becomes one free block followed by the new epilogue (the block
appended at the end of the sequence), which is handed to coalesce. -/
def extend_heap (s : Heap) (words : Nat) : Heap × Option Nat :=
  let size := evenWords words * 8
  if s.cap < s.brk + size then (s, none)
  else
    let s1 : Heap := { s with
      brk := s.brk + size
      blocks := s.blocks ++ [⟨size, false, fun _ => 0⟩] }
    let r := coalesce s1 (s.blocks.length)
    (r.1, some r.2)

/-- mm_init from mm.c: empty the ten lists, sbrk 4 words for
padding/prologue/epilogue, then extend by CHUNKSIZE/WSIZE words. -/
def mm_init (base cap : Nat) : Option Heap :=
  if cap < base + 32 then none
  else
    let s : Heap := ⟨base, base + 32, cap, [], List.replicate 10 []⟩
    match extend_heap s (4096 / 8) with
    | (_, none) => none
    | (s', some _) => some s'

/-- The inner loop of find_fit over one segregated list, carrying the
best candidate and its leftover; an exact fit returns at once. -/
def ffInner (sz : Nat → Nat) (asize : Nat) : List Nat → Option Nat → Nat → Option Nat × Nat
  | [], best, md => (best, md)
  | bp :: rest, best, md =>
    let bsize := sz bp
    if asize ≤ bsize then
      let diff := bsize - asize
      if diff < md then
        if diff = 0 then (some bp, 0)
        else ffInner sz asize rest (some bp) diff
      else ffInner sz asize rest best md
    else ffInner sz asize rest best md

/-- The outer loop of find_fit: scan buckets upward from idx; as soon as
a bucket produced a candidate, return it.  fuel = 10 - idx counts the
remaining buckets (in mm.c, best_bp/min_diff live outside the outer
loop, but a bucket that sets best_bp also returns at its end, so each
bucket effectively starts from NULL and (size_t)-1 again). -/
def ffLoop (sz : Nat → Nat) (segs : List (List Nat)) (asize : Nat) : Nat → Nat → Option Nat
  | 0, _ => none
  | fuel + 1, idx =>
    match ffInner sz asize (segs.getD idx []) none (U64 - 1) with
    | (some bp, _) => some bp
    | (none, _) => ffLoop sz segs asize fuel (idx + 1)

/-- find_fit from mm.c. -/
def find_fit (s : Heap) (asize : Nat) : Option Nat :=
  ffLoop (sizeAt s) s.segs asize (10 - get_list_index asize) (get_list_index asize)

/-- place from mm.c, acting on block index i: remove the block from its
list; split iff csize - asize (size_t subtraction) is at least the
minimal block size 2*DSIZE = 32, inserting the remainder; else allocate
the whole block.  The split layout (front block of asize, remainder
after it) renders the header/footer rewrites for the asize values
mm_malloc produces when the size_t adjusted-size computation does not
wrap — 16-aligned and at least 32.  For a degenerate asize < 16 the C
code's remainder header write would alias the front block's header
(NEXT_BLKP lands on bp itself at asize = 0), a self-overwriting store
sequence this block-level embedding does not represent; theorems
touching place therefore carry hypotheses keeping asize in the
non-degenerate regime. -/
def place (s : Heap) (i : Nat) (asize : Nat) : Heap :=
  let bp := addrOf s i
  let b := s.blocks.getD i defaultB
  let csize := b.size
  let s1 := remove_block s bp
  if 32 ≤ sub64 csize asize then
    let front : Block := ⟨asize, true, b.data⟩
    let rem : Block := ⟨csize - asize, false, fun k => b.data (asize + k)⟩
    let s2 := { s1 with blocks := s1.blocks.take i ++ [front, rem] ++ s1.blocks.drop (i + 1) }
    insert_block s2 (bp + asize)
  else
    { s1 with blocks := s1.blocks.set i ⟨csize, true, b.data⟩ }

/-- mm_malloc from mm.c.  The returned pointer is Option (none = NULL).
The outer Option is the undefined-behaviour monad: it is none only if a
seg_list entry does not denote a block, which cannot happen in a
well-formed state. -/
def mm_malloc (s : Heap) (size : Nat) : Option (Heap × Option Nat) :=
  if size = 0 then some (s, none)
  else
    let asize := codeAsize size
    match find_fit s asize with
    | some bp => (idxOfAddr s bp).map (fun i => (place s i asize, some bp))
    | none =>
      let extendsize := max asize 4096
      match extend_heap s (extendsize / 8) with
      | (s', none) => some (s', none)
      | (s', some bp) => (idxOfAddr s' bp).map (fun i => (place s' i asize, some bp))

/-- Index of the allocated block whose payload address is p.  mm_free
performs no validation; passing an address that is not an allocated
block's payload dereferences garbage (undefined behaviour, none). -/
def idxAlloc (s : Heap) (p : Nat) : Option Nat :=
  match idxOfAddr s p with
  | some i => if (s.blocks.getD i defaultB).alloc then some i else none
  | none => none

/-- Body of mm_free once the block is located: write a free header and
footer of the same size, then coalesce. -/
def freeAt (s : Heap) (i : Nat) : Heap :=
  let b := s.blocks.getD i defaultB
  let s1 := { s with blocks := s.blocks.set i ⟨b.size, false, b.data⟩ }
  (coalesce s1 i).1

/-- mm_free from mm.c. -/
def mm_free (s : Heap) (p : Nat) : Option Heap :=
  (idxAlloc s p).map (freeAt s)

/-- The memcpy(newptr, oldptr, n) of mm_realloc: overwrite the first n
payload bytes of the block at dst with those of the block at src. -/
def memcpyB (s : Heap) (dst src n : Nat) : Option Heap :=
  match idxOfAddr s dst, lookupB s src with
  | some j, some bsrc =>
    let bdst := s.blocks.getD j defaultB
    some { s with blocks :=
      s.blocks.set j ⟨bdst.size, bdst.alloc, fun k => if k < n then bsrc.data k else bdst.data k⟩ }
  | _, _ => none

/-- mm_realloc from mm.c.  ptr = 0 is NULL.  copySize is
GET_SIZE(HDRP(ptr)) - DSIZE, clamped to size when size is smaller. -/
def mm_realloc (s : Heap) (ptr size : Nat) : Option (Heap × Option Nat) :=
  if size = 0 then (mm_free s ptr).map (fun s' => (s', none))
  else if ptr = 0 then mm_malloc s size
  else
    match mm_malloc s size with
    | none => none
    | some (s1, none) => some (s1, none)
    | some (s1, some np) =>
      let copySize0 := sizeAt s1 ptr - 16
      let copySize := if size < copySize0 then size else copySize0
      match memcpyB s1 np ptr copySize with
      | none => none
      | some s2 => (mm_free s2 ptr).map (fun s3 => (s3, some np))

/-- A driver request, as issued by a trace: allocate, release, resize. -/
inductive Op where
  | malloc (n : Nat)
  | free (a : Nat)
  | realloc (a n : Nat)

def step (s : Heap) : Op → Option (Heap × Option Nat)
  | Op.malloc n => mm_malloc s n
  | Op.free a => (mm_free s a).map (fun s' => (s', none))
  | Op.realloc a n => mm_realloc s a n

/-- Run a request sequence, collecting every non-null returned pointer. -/
def runGo (s : Heap) : List Op → Option (Heap × List Nat)
  | [] => some (s, [])
  | op :: rest =>
    match step s op with
    | none => none
    | some (s', ret) => (runGo s' rest).map (fun p => (p.1, ret.toList ++ p.2))

def runOps (base cap : Nat) (ops : List Op) : Option (Heap × List Nat) :=
  (mm_init base cap).bind (fun s => runGo s ops)

/-- Modelled from the spec: adjusted_size = align(max(size +
block_overhead, minimum_block_size)) with block_overhead = 16 and
minimum_block_size = 32, align rounding up to a multiple of 16. -/
def specAdjustedSize (size : Nat) : Nat := (max (size + 16) 32 + 15) / 16 * 16

/-- Alignment invariant: the heap base is 16-byte aligned and every
block's stored size is a multiple of 16; prologue + padding occupy 32
bytes, so every payload address base + 32 + (sum of earlier sizes) is
then 16-byte aligned. -/
def InvA (s : Heap) : Prop := s.base % 16 = 0 ∧ ∀ b ∈ s.blocks, b.size % 16 = 0

/-- No two physically adjacent blocks are both free. -/
def noAdjFree (l : List Block) : Prop :=
  List.Chain' (fun a b => a.alloc = true ∨ b.alloc = true) l

/-- Well-formedness of a heap state: ten lists; every list member is the
payload address of a free block; every block has legal size, free blocks
sit exactly once in the list of their size class, allocated blocks sit
in no list. -/
def wfH (s : Heap) : Prop :=
  s.segs.length = 10 ∧
  (∀ a ∈ allSeg s, isFreeAddr s a = true) ∧
  (∀ i < s.blocks.length,
    (32 ≤ (s.blocks.getD i defaultB).size ∧ (s.blocks.getD i defaultB).size < U64) ∧
    ((s.blocks.getD i defaultB).alloc = false →
      occCount s (addrOf s i) = 1 ∧
      addrOf s i ∈ bucket s (get_list_index (s.blocks.getD i defaultB).size)) ∧
    ((s.blocks.getD i defaultB).alloc = true → occCount s (addrOf s i) = 0))

/-- Executable check of the no-adjacent-free invariant. -/
def noAdjFreeB : List Block → Bool
  | [] => true
  | [_] => true
  | a :: b :: rest => (a.alloc || b.alloc) && noAdjFreeB (b :: rest)

instance : DecidablePred noAdjFree := fun l =>
  decidable_of_iff (noAdjFreeB l = true) (by
    induction l with
    | nil => simp [noAdjFree, noAdjFreeB]
    | cons a rest ih =>
      cases rest with
      | nil => simp [noAdjFree, noAdjFreeB]
      | cons b rest2 =>
        rw [show noAdjFreeB (a :: b :: rest2)
            = ((a.alloc || b.alloc) && noAdjFreeB (b :: rest2)) from rfl]
        rw [Bool.and_eq_true, Bool.or_eq_true]
        unfold noAdjFree
        rw [List.chain'_cons]
        unfold noAdjFree at ih
        rw [ih])

instance (s : Heap) : Decidable (wfH s) := by
  unfold wfH
  infer_instance

/-- The neighbour tests of coalesce, as read from the block sequence:
the previous block exists (the prologue is allocated) and is free. -/
def prevFreeB (s : Heap) (i : Nat) : Bool :=
  decide (i ≠ 0) && !(s.blocks.getD (i - 1) defaultB).alloc

/-- The next block exists (the epilogue is allocated) and is free. -/
def nextFreeB (s : Heap) (i : Nat) : Bool :=
  decide (i + 1 < s.blocks.length) && !(s.blocks.getD (i + 1) defaultB).alloc

/-- The address of the block that results from coalescing around block
i: the predecessor's address when the predecessor was free. -/
def mergedAddr (s : Heap) (i : Nat) : Nat :=
  if prevFreeB s i then addrOf s (i - 1) else addrOf s i

/-- The combined span of the coalesced block. -/
def mergedSize (s : Heap) (i : Nat) : Nat :=
  (if prevFreeB s i then (s.blocks.getD (i - 1) defaultB).size else 0) +
    (s.blocks.getD i defaultB).size +
    (if nextFreeB s i then (s.blocks.getD (i + 1) defaultB).size else 0)

/-- A concrete initialized heap: base 16, mem_sbrk granting up to 16000. -/
def sInit : Heap := (mm_init 16 16000).getD defaultH

/-- The concrete heap after allocating 48 bytes from sInit. -/
def sM1 : Heap := ((mm_malloc sInit 48).getD (defaultH, none)).1

/-- A concrete successful heap extension from sInit, as issued by the
growth path of mm_malloc for a request of 5000 bytes. -/
def wE : Heap × Option Nat := extend_heap sInit (max (codeAsize 5000) 4096 / 8)

/-- A concrete full driver run: init at base 16 with 16000 bytes of
growth room, then two allocations. -/
def wRun : Heap × List Nat :=
  (runOps 16 16000 [Op.malloc 24, Op.malloc 100]).getD (defaultH, [])

/-- The ten cases of get_list_index, in an arithmetic form. -/
lemma gli_cases (size : Nat) :
    (size ≤ 16 ∧ get_list_index size = 0) ∨
    (16 < size ∧ size ≤ 32 ∧ get_list_index size = 1) ∨
    (32 < size ∧ size ≤ 64 ∧ get_list_index size = 2) ∨
    (64 < size ∧ size ≤ 128 ∧ get_list_index size = 3) ∨
    (128 < size ∧ size ≤ 256 ∧ get_list_index size = 4) ∨
    (256 < size ∧ size ≤ 512 ∧ get_list_index size = 5) ∨
    (512 < size ∧ size ≤ 1024 ∧ get_list_index size = 6) ∨
    (1024 < size ∧ size ≤ 2048 ∧ get_list_index size = 7) ∨
    (2048 < size ∧ size ≤ 4096 ∧ get_list_index size = 8) ∨
    (4096 < size ∧ get_list_index size = 9) := by
  simp only [get_list_index]
  split_ifs <;> omega

lemma sumSizes_nil : sumSizes [] = 0 := rfl

lemma sumSizes_cons (b : Block) (l : List Block) :
    sumSizes (b :: l) = b.size + sumSizes l := by
  simp [sumSizes]

lemma sumSizes_append (l1 l2 : List Block) :
    sumSizes (l1 ++ l2) = sumSizes l1 + sumSizes l2 := by
  simp [sumSizes]

lemma sumSizes_take_succ (l : List Block) (i : Nat) (h : i < l.length) :
    sumSizes (l.take (i + 1)) = sumSizes (l.take i) + (l.getD i defaultB).size := by
  induction l generalizing i with
  | nil => simp at h
  | cons b rest ih =>
    cases i with
    | zero => simp [sumSizes_cons, sumSizes_nil]
    | succ j =>
      simp only [List.take_succ_cons, sumSizes_cons, List.getD_cons_succ]
      rw [ih j (by simpa using h)]
      omega

lemma findBlk_nil (a start : Nat) : findBlk a start [] = none := rfl

lemma findBlk_cons_self (a : Nat) (b : Block) (l : List Block) :
    findBlk a a (b :: l) = some (0, b) := by
  simp [findBlk]

lemma findBlk_cons_ne (a start : Nat) (b : Block) (l : List Block) (h : start ≠ a) :
    findBlk a start (b :: l) =
      (findBlk a (start + b.size) l).map (fun p => (p.1 + 1, p.2)) := by
  simp [findBlk, h]

/-- If the search misses the first part of an appended list, it
continues in the second with accumulated address and shifted index. -/
lemma findBlk_append_right (a : Nat) (l1 l2 : List Block) :
    ∀ (start : Nat), findBlk a start l1 = none →
    findBlk a start (l1 ++ l2) =
      (findBlk a (start + sumSizes l1) l2).map (fun p => (p.1 + l1.length, p.2)) := by
  induction l1 with
  | nil =>
    intro start _
    simp only [List.nil_append, sumSizes_nil, Nat.add_zero, List.length_nil]
    cases hr : findBlk a start l2 with
    | none => simp
    | some p => simp
  | cons b l ih =>
    intro start h
    by_cases hs : start = a
    · subst hs; rw [findBlk_cons_self] at h; exact absurd h (by simp)
    · rw [findBlk_cons_ne a start b l hs] at h
      have h0 : findBlk a (start + b.size) l = none := by
        cases hr : findBlk a (start + b.size) l with
        | none => rfl
        | some p => rw [hr] at h; exact absurd h (by simp)
      rw [List.cons_append, findBlk_cons_ne a start b (l ++ l2) hs, ih (start + b.size) h0]
      rw [show start + b.size + sumSizes l = start + sumSizes (b :: l) from by
        rw [sumSizes_cons]; omega]
      cases hr : findBlk a (start + sumSizes (b :: l)) l2 with
      | none => simp
      | some p =>
        simp only [Option.map_some', List.length_cons, Option.some_inj, Prod.mk.injEq]
        exact ⟨by omega, trivial⟩

/-- When all sizes are positive, the block at index i is found exactly
at its accumulated address. -/
lemma findBlk_at_index (l : List Block) :
    ∀ (start i : Nat), i < l.length → (∀ b ∈ l, 0 < b.size) →
    findBlk (start + sumSizes (l.take i)) start l = some (i, l.getD i defaultB) := by
  induction l with
  | nil => intro start i h _; simp at h
  | cons b rest ih =>
    intro start i h hpos
    cases i with
    | zero => simp [findBlk, sumSizes_nil]
    | succ j =>
      have hb : 0 < b.size := hpos b (List.mem_cons_self b rest)
      simp only [List.take_succ_cons, sumSizes_cons]
      have hne : start ≠ start + (b.size + sumSizes (rest.take j)) := by omega
      rw [findBlk_cons_ne _ _ _ _ hne]
      have := ih (start + b.size) j (by simpa using h)
        (fun x hx => hpos x (List.mem_cons_of_mem _ hx))
      rw [show start + (b.size + sumSizes (rest.take j))
            = start + b.size + sumSizes (rest.take j) from by omega, this]
      simp

/-- Whatever findBlk returns is the block at the returned index with the
accumulated address. -/
lemma findBlk_some_imp (l : List Block) :
    ∀ (a start i : Nat) (b : Block), findBlk a start l = some (i, b) →
    i < l.length ∧ a = start + sumSizes (l.take i) ∧ b = l.getD i defaultB := by
  induction l with
  | nil => intro a start i b h; rw [findBlk_nil] at h; exact absurd h (by simp)
  | cons c rest ih =>
    intro a start i b h
    by_cases hs : start = a
    · subst hs
      rw [findBlk_cons_self] at h
      obtain ⟨h1, h2⟩ := Prod.ext_iff.mp (Option.some_inj.mp h)
      simp only at h1 h2
      subst h1
      refine ⟨by simp, by simp [sumSizes_nil], by simp [← h2]⟩
    · rw [findBlk_cons_ne a start c rest hs] at h
      cases hr : findBlk a (start + c.size) rest with
      | none => rw [hr] at h; exact absurd h (by simp)
      | some p =>
        rw [hr] at h
        simp only [Option.map_some'] at h
        obtain ⟨h1, h2⟩ := Prod.ext_iff.mp (Option.some_inj.mp h)
        simp only at h1 h2
        obtain ⟨hlt, haddr, hb⟩ := ih a (start + c.size) p.1 p.2 hr
        cases i with
        | zero => omega
        | succ j =>
          have hj : p.1 = j := by omega
          subst hj
          refine ⟨by simpa using hlt, ?_, by simpa [← h2] using hb⟩
          simp only [List.take_succ_cons, sumSizes_cons]
          omega

lemma idxOfAddr_addrOf (s : Heap) (i : Nat) (hi : i < s.blocks.length)
    (hpos : ∀ b ∈ s.blocks, 0 < b.size) :
    idxOfAddr s (addrOf s i) = some i := by
  unfold idxOfAddr addrOf
  rw [findBlk_at_index s.blocks (s.base + 32) i hi hpos]
  rfl

lemma lookupB_addrOf (s : Heap) (i : Nat) (hi : i < s.blocks.length)
    (hpos : ∀ b ∈ s.blocks, 0 < b.size) :
    lookupB s (addrOf s i) = some (s.blocks.getD i defaultB) := by
  unfold lookupB addrOf
  rw [findBlk_at_index s.blocks (s.base + 32) i hi hpos]
  rfl

lemma sizeAt_addrOf (s : Heap) (i : Nat) (hi : i < s.blocks.length)
    (hpos : ∀ b ∈ s.blocks, 0 < b.size) :
    sizeAt s (addrOf s i) = (s.blocks.getD i defaultB).size := by
  unfold sizeAt
  rw [lookupB_addrOf s i hi hpos]
  rfl

lemma idxOfAddr_some_imp (s : Heap) (a i : Nat) (h : idxOfAddr s a = some i) :
    i < s.blocks.length ∧ a = addrOf s i := by
  unfold idxOfAddr at h
  cases hr : findBlk a (s.base + 32) s.blocks with
  | none => rw [hr] at h; exact absurd h (by simp)
  | some p =>
    rw [hr] at h
    obtain ⟨hlt, haddr, _⟩ := findBlk_some_imp s.blocks a (s.base + 32) p.1 p.2 (by rw [hr])
    simp only [Option.map_some'] at h
    have : p.1 = i := Option.some_inj.mp h
    subst this
    exact ⟨hlt, by unfold addrOf; omega⟩

lemma lookupB_some_imp (s : Heap) (a : Nat) (b : Block) (h : lookupB s a = some b) :
    ∃ i, i < s.blocks.length ∧ a = addrOf s i ∧ b = s.blocks.getD i defaultB ∧
      idxOfAddr s a = some i := by
  unfold lookupB at h
  cases hr : findBlk a (s.base + 32) s.blocks with
  | none => rw [hr] at h; exact absurd h (by simp)
  | some p =>
    rw [hr] at h
    simp only [Option.map_some'] at h
    obtain ⟨hlt, haddr, hb⟩ := findBlk_some_imp s.blocks a (s.base + 32) p.1 p.2 (by rw [hr])
    refine ⟨p.1, hlt, by unfold addrOf; omega, by rw [← Option.some_inj.mp h]; exact hb, ?_⟩
    unfold idxOfAddr
    rw [hr]
    rfl

/-- A search for an address at or beyond the end of the list misses. -/
lemma findBlk_none_of_ge (l : List Block) :
    ∀ (start a : Nat), (∀ b ∈ l, 0 < b.size) → start + sumSizes l ≤ a →
    findBlk a start l = none := by
  induction l with
  | nil => intro start a _ _; rfl
  | cons b rest ih =>
    intro start a hpos h
    rw [sumSizes_cons] at h
    have hb : 0 < b.size := hpos b (List.mem_cons_self b rest)
    rw [findBlk_cons_ne a start b rest (by omega),
      ih (start + b.size) a (fun x hx => hpos x (List.mem_cons_of_mem _ hx)) (by omega)]
    rfl

/-- A search beyond a positive-size prefix continues in the suffix. -/
lemma findBlk_past_front (P Q : List Block) (start a : Nat)
    (hpos : ∀ b ∈ P, 0 < b.size) (ha : start + sumSizes P ≤ a) :
    findBlk a start (P ++ Q) =
      (findBlk a (start + sumSizes P) Q).map (fun p => (p.1 + P.length, p.2)) :=
  findBlk_append_right a P Q start (findBlk_none_of_ge P start a hpos ha)

/-- insert_block and remove_block touch only the seg lists, so address
lookups are unchanged. -/
lemma lookupB_insert_block (s : Heap) (x a : Nat) :
    lookupB (insert_block s x) a = lookupB s a := rfl

lemma lookupB_remove_block (s : Heap) (x a : Nat) :
    lookupB (remove_block s x) a = lookupB s a := rfl

lemma sizeAt_insert_block (s : Heap) (x a : Nat) :
    sizeAt (insert_block s x) a = sizeAt s a := rfl

lemma sizeAt_remove_block (s : Heap) (x a : Nat) :
    sizeAt (remove_block s x) a = sizeAt s a := rfl

lemma base_insert_block (s : Heap) (x : Nat) : (insert_block s x).base = s.base := rfl

lemma base_remove_block (s : Heap) (x : Nat) : (remove_block s x).base = s.base := rfl

lemma blocks_insert_block (s : Heap) (x : Nat) : (insert_block s x).blocks = s.blocks := rfl

lemma blocks_remove_block (s : Heap) (x : Nat) : (remove_block s x).blocks = s.blocks := rfl

/-- Looking up the address of block i in a state whose block list
replaces everything from index i on by a block m (followed by anything)
yields m. -/
lemma lookupB_mid (s t : Heap) (i : Nat) (m : Block) (tail : List Block)
    (hbase : t.base = s.base)
    (hblocks : t.blocks = s.blocks.take i ++ m :: tail)
    (hpos : ∀ b ∈ s.blocks.take i, 0 < b.size) :
    lookupB t (addrOf s i) = some m := by
  unfold lookupB
  rw [hblocks, hbase]
  rw [findBlk_past_front (s.blocks.take i) (m :: tail) (s.base + 32) (addrOf s i) hpos
    (by unfold addrOf; omega)]
  rw [show s.base + 32 + sumSizes (s.blocks.take i) = addrOf s i from rfl]
  rw [findBlk_cons_self]
  rfl

lemma sizeAt_mid (s t : Heap) (i : Nat) (m : Block) (tail : List Block)
    (hbase : t.base = s.base)
    (hblocks : t.blocks = s.blocks.take i ++ m :: tail)
    (hpos : ∀ b ∈ s.blocks.take i, 0 < b.size) :
    sizeAt t (addrOf s i) = m.size := by
  unfold sizeAt
  rw [lookupB_mid s t i m tail hbase hblocks hpos]
  rfl

/-- The address returned by coalesce denotes a block at least as large
as block i was. -/
lemma coalesce_size_ge (s : Heap) (i : Nat) (hi : i < s.blocks.length)
    (hpos : ∀ b ∈ s.blocks, 0 < b.size) :
    (s.blocks.getD i defaultB).size ≤ sizeAt (coalesce s i).1 (coalesce s i).2 := by
  have hposT : ∀ j, ∀ b ∈ s.blocks.take j, 0 < b.size :=
    fun j b hb => hpos b (List.mem_of_mem_take hb)
  cases hpa : (if i = 0 then true else (s.blocks.getD (i - 1) defaultB).alloc) with
  | true =>
    cases hna : (if i + 1 < s.blocks.length then (s.blocks.getD (i + 1) defaultB).alloc
        else true) with
    | true =>
      simp only [coalesce, hpa, hna]
      norm_num
      rw [sizeAt_insert_block, sizeAt_addrOf s i hi hpos]
      simp [List.getD]
    | false =>
      simp only [coalesce, hpa, hna]
      norm_num
      rw [sizeAt_insert_block]
      rw [sizeAt_mid s _ i _ (s.blocks.drop (i + 2)) (by rfl) (by rfl) (hposT i)]
      simp [List.getD]
  | false =>
    have hi0 : i ≠ 0 := by
      intro h
      rw [h] at hpa
      simp at hpa
    cases hna : (if i + 1 < s.blocks.length then (s.blocks.getD (i + 1) defaultB).alloc
        else true) with
    | true =>
      simp only [coalesce, hpa, hna]
      norm_num
      rw [sizeAt_insert_block]
      rw [sizeAt_mid s _ (i - 1) _ (s.blocks.drop (i + 1)) (by rfl) (by rfl) (hposT (i - 1))]
      simp [List.getD]
    | false =>
      simp only [coalesce, hpa, hna]
      norm_num
      rw [sizeAt_insert_block]
      rw [sizeAt_mid s _ (i - 1) _ (s.blocks.drop (i + 2)) (by rfl) (by rfl) (hposT (i - 1))]
      simp only [List.getD]
      omega

lemma getD_eq_get (l : List Block) (i : Nat) (d : Block) (h : i < l.length) :
    l.getD i d = l[i] := by
  simp [List.getD, List.getElem?_eq_getElem h]

/-- Every block of a well-formed heap has positive size. -/
lemma pos_of_wf (s : Heap) (hwf : wfH s) : ∀ b ∈ s.blocks, 0 < b.size := by
  intro b hb
  obtain ⟨i, hi, hbi⟩ := List.mem_iff_getElem.mp hb
  have h := ((hwf.2.2 i hi).1).1
  rw [getD_eq_get _ _ _ hi, hbi] at h
  omega

lemma addrOf_succ (s : Heap) (i : Nat) (hi : i < s.blocks.length) :
    addrOf s (i + 1) = addrOf s i + (s.blocks.getD i defaultB).size := by
  unfold addrOf
  rw [sumSizes_take_succ s.blocks i hi]
  omega

lemma addrOf_mono (s : Heap) (i j : Nat) (hij : i ≤ j) : addrOf s i ≤ addrOf s j := by
  unfold addrOf
  have : sumSizes (s.blocks.take i) ≤ sumSizes (s.blocks.take j) := by
    rw [show s.blocks.take i = (s.blocks.take j).take i from by
      rw [List.take_take, min_eq_left hij]]
    conv_rhs => rw [show s.blocks.take j
      = (s.blocks.take j).take i ++ (s.blocks.take j).drop i from (List.take_append_drop _ _).symm]
    rw [sumSizes_append]
    omega
  omega

lemma addrOf_strict (s : Heap) (i j : Nat) (hij : i < j) (hi : i < s.blocks.length)
    (hpos : ∀ b ∈ s.blocks, 0 < b.size) : addrOf s i < addrOf s j := by
  have h1 := addrOf_succ s i hi
  have h2 := addrOf_mono s (i + 1) j hij
  have h3 : 0 < (s.blocks.getD i defaultB).size := by
    have := hpos (s.blocks.getD i defaultB) (by
      rw [getD_eq_get _ _ _ hi]
      exact List.getElem_mem hi)
    exact this
  omega

/-- An address strictly inside block i is no block's address. -/
lemma addr_inside_not_block (s : Heap) (i x : Nat) (hi : i < s.blocks.length)
    (hpos : ∀ b ∈ s.blocks, 0 < b.size)
    (h1 : addrOf s i < x) (h2 : x < addrOf s i + (s.blocks.getD i defaultB).size) :
    ∀ j, j < s.blocks.length → addrOf s j ≠ x := by
  intro j hj heq
  rcases Nat.lt_or_ge i j with h | h
  · have := addrOf_mono s (i + 1) j h
    have := addrOf_succ s i hi
    omega
  · have := addrOf_mono s j i h
    rcases Nat.eq_or_lt_of_le h with he | hl
    · omega
    · have := addrOf_strict s j i hl hj hpos
      omega

lemma mem_foldr_of_count_pos (x : Nat) :
    ∀ segs : List (List Nat), 0 < ((segs.map (fun l => l.count x)).sum) →
    x ∈ segs.foldr (· ++ ·) [] := by
  intro segs
  induction segs with
  | nil => intro h; simp at h
  | cons l rest ih =>
    intro h
    simp only [List.map_cons, List.sum_cons] at h
    simp only [List.foldr_cons]
    rcases Nat.eq_zero_or_pos (l.count x) with h0 | h0
    · rw [h0] at h
      simp only [Nat.zero_add] at h
      exact List.mem_append_right _ (ih h)
    · exact List.mem_append_left _ (List.count_pos_iff.mp h0)

/-- A positive occurrence count puts the address in some seg list. -/
lemma mem_allSeg_of_occ_pos (s : Heap) (x : Nat) (h : 0 < occCount s x) :
    x ∈ allSeg s :=
  mem_foldr_of_count_pos x s.segs h

/-- Setting one seg list changes the occurrence sum by exactly the
difference on that list. -/
lemma sum_map_set (f : List Nat → Nat) :
    ∀ (segs : List (List Nat)) (k : Nat) (L : List Nat), k < segs.length →
    ((segs.set k L).map f).sum + f (segs.getD k []) = (segs.map f).sum + f L := by
  intro segs
  induction segs with
  | nil => intro k L h; simp at h
  | cons l rest ih =>
    intro k L h
    cases k with
    | zero => simp [List.set_cons_zero]; omega
    | succ j =>
      simp only [List.set_cons_succ, List.map_cons, List.sum_cons, List.getD_cons_succ]
      have := ih j L (by simpa using h)
      omega

lemma sum_map_ge (f : List Nat → Nat) :
    ∀ (segs : List (List Nat)) (k : Nat), k < segs.length →
    f (segs.getD k []) ≤ (segs.map f).sum := by
  intro segs
  induction segs with
  | nil => intro k h; simp at h
  | cons l rest ih =>
    intro k h
    cases k with
    | zero => simp
    | succ j =>
      simp only [List.getD_cons_succ, List.map_cons, List.sum_cons]
      have := ih j (by simpa using h)
      omega

lemma count_insOrd_self (sz : Nat → Nat) (size a : Nat) :
    ∀ l : List Nat, (insOrd sz size a l).count a = l.count a + 1 := by
  intro l
  induction l with
  | nil => simp [insOrd]
  | cons c rest ih =>
    unfold insOrd
    split_ifs with h
    · rw [List.count_cons, List.count_cons, ih]
      omega
    · simp [List.count_cons]

lemma count_insOrd_ne (sz : Nat → Nat) (size a x : Nat) (hx : x ≠ a) :
    ∀ l : List Nat, (insOrd sz size a l).count x = l.count x := by
  intro l
  induction l with
  | nil => simp [insOrd, List.count_singleton, hx]
  | cons c rest ih =>
    unfold insOrd
    split_ifs with h
    · rw [List.count_cons, List.count_cons, ih]
    · simp [List.count_cons, Ne.symm hx]

lemma mem_insOrd_self (sz : Nat → Nat) (size a : Nat) :
    ∀ l : List Nat, a ∈ insOrd sz size a l := by
  intro l
  induction l with
  | nil => simp [insOrd]
  | cons c rest ih =>
    unfold insOrd
    split_ifs with h
    · exact List.mem_cons_of_mem _ ih
    · exact List.mem_cons_self _ _

lemma segs_length_insert (s : Heap) (a : Nat) :
    (insert_block s a).segs.length = s.segs.length := by
  simp [insert_block]

lemma segs_length_remove (s : Heap) (a : Nat) :
    (remove_block s a).segs.length = s.segs.length := by
  simp [remove_block]

/-- occCount after remove_block: the removed address loses one
occurrence (if present in its size-class list), others are unchanged. -/
lemma occCount_remove_ne (s : Heap) (a x : Nat) (hx : x ≠ a)
    (hlen : get_list_index (sizeAt s a) < s.segs.length) :
    occCount (remove_block s a) x = occCount s x := by
  simp only [remove_block, occCount, bucket]
  have h := sum_map_set (fun l => l.count x) s.segs (get_list_index (sizeAt s a))
    ((s.segs.getD (get_list_index (sizeAt s a)) []).erase a) hlen
  simp only at h
  rw [List.count_erase_of_ne hx] at h
  omega

lemma occCount_remove_self (s : Heap) (a : Nat)
    (hlen : get_list_index (sizeAt s a) < s.segs.length)
    (hmem : a ∈ bucket s (get_list_index (sizeAt s a))) :
    occCount (remove_block s a) a = occCount s a - 1 := by
  simp only [remove_block, occCount, bucket]
  have h := sum_map_set (fun l => l.count a) s.segs (get_list_index (sizeAt s a))
    ((s.segs.getD (get_list_index (sizeAt s a)) []).erase a) hlen
  simp only at h
  rw [List.count_erase_self] at h
  have hpos : 0 < (s.segs.getD (get_list_index (sizeAt s a)) []).count a :=
    List.count_pos_iff.mpr (by simpa [bucket] using hmem)
  omega

lemma occCount_insert_ne (s : Heap) (a x : Nat) (hx : x ≠ a)
    (hlen : get_list_index (sizeAt s a) < s.segs.length) :
    occCount (insert_block s a) x = occCount s x := by
  simp only [insert_block, occCount, bucket]
  have h := sum_map_set (fun l => l.count x) s.segs (get_list_index (sizeAt s a))
    (insOrd (sizeAt s) (sizeAt s a) a (s.segs.getD (get_list_index (sizeAt s a)) [])) hlen
  simp only at h
  rw [count_insOrd_ne (sizeAt s) (sizeAt s a) a x hx] at h
  omega

lemma occCount_insert_self (s : Heap) (a : Nat)
    (hlen : get_list_index (sizeAt s a) < s.segs.length) :
    occCount (insert_block s a) a = occCount s a + 1 := by
  simp only [insert_block, occCount, bucket]
  have h := sum_map_set (fun l => l.count a) s.segs (get_list_index (sizeAt s a))
    (insOrd (sizeAt s) (sizeAt s a) a (s.segs.getD (get_list_index (sizeAt s a)) [])) hlen
  simp only at h
  rw [count_insOrd_self (sizeAt s) (sizeAt s a) a] at h
  omega

lemma getD_set_self (l : List (List Nat)) (k : Nat) (L : List Nat) (hk : k < l.length) :
    (l.set k L).getD k [] = L := by
  simp [List.getD, List.getElem?_set, hk]

/-- The inserted address lands in the list of its size class. -/
lemma mem_bucket_insert_self (s : Heap) (a : Nat)
    (hlen : get_list_index (sizeAt s a) < s.segs.length) :
    a ∈ bucket (insert_block s a) (get_list_index (sizeAt s a)) := by
  simp only [insert_block, bucket]
  rw [getD_set_self _ _ _ hlen]
  exact mem_insOrd_self (sizeAt s) (sizeAt s a) a (bucket s (get_list_index (sizeAt s a)))

/-- occCount ignores the blocks field. -/
lemma occCount_set_blocks (s : Heap) (bl : List Block) (x : Nat) :
    occCount { s with blocks := bl } x = occCount s x := rfl

/-- Whatever the inner find_fit loop returns passed the bsize >= asize
test (or was already an admissible accumulator). -/
lemma ffInner_some_adm (sz : Nat → Nat) (asize : Nat) :
    ∀ (l : List Nat) (best : Option Nat) (md : Nat) (bp md' : Nat),
    (∀ b, best = some b → asize ≤ sz b) →
    ffInner sz asize l best md = (some bp, md') → asize ≤ sz bp := by
  intro l
  induction l with
  | nil =>
    intro best md bp md' hinv h
    have : best = some bp := by
      have := congrArg Prod.fst h
      simpa [ffInner] using this
    exact hinv bp this
  | cons x rest ih =>
    intro best md bp md' hinv h
    by_cases hx : asize ≤ sz x
    · by_cases hlt : sz x - asize < md
      · by_cases h0 : sz x - asize = 0
        · simp only [ffInner, if_pos hx, if_pos hlt, if_pos h0] at h
          have : x = bp := by
            have := congrArg Prod.fst h
            simpa using this
          exact this ▸ hx
        · simp only [ffInner, if_pos hx, if_pos hlt, if_neg h0] at h
          exact ih (some x) (sz x - asize) bp md'
            (fun b hb => (Option.some_inj.mp hb) ▸ hx) h
      · simp only [ffInner, if_pos hx, if_neg hlt] at h
        exact ih best md bp md' hinv h
    · simp only [ffInner, if_neg hx] at h
      exact ih best md bp md' hinv h

lemma ffLoop_some_adm (sz : Nat → Nat) (segs : List (List Nat)) (asize : Nat) :
    ∀ (fuel idx bp : Nat), ffLoop sz segs asize fuel idx = some bp → asize ≤ sz bp := by
  intro fuel
  induction fuel with
  | zero => intro idx bp h; exact absurd h (by simp [ffLoop])
  | succ n ih =>
    intro idx bp h
    simp only [ffLoop] at h
    cases hr : ffInner sz asize (segs.getD idx []) none (U64 - 1) with
    | mk o md =>
      cases o with
      | some q =>
        rw [hr] at h
        simp only at h
        have : q = bp := Option.some_inj.mp h
        subst this
        exact ffInner_some_adm sz asize (segs.getD idx []) none (U64 - 1) q md
          (fun b hb => by simp at hb) hr
      | none =>
        rw [hr] at h
        simp only at h
        exact ih (idx + 1) bp h

/-- Any block returned by find_fit has stored size at least asize. -/
lemma find_fit_some_adm (s : Heap) (asize bp : Nat) (h : find_fit s asize = some bp) :
    asize ≤ sizeAt s bp :=
  ffLoop_some_adm (sizeAt s) s.segs asize (10 - get_list_index asize)
    (get_list_index asize) bp h

/-- The adjusted size computed by mm_malloc is always a multiple of 16. -/
lemma codeAsize_mod16 (size : Nat) : codeAsize size % 16 = 0 := by
  unfold codeAsize ALIGN
  split_ifs
  · rfl
  · omega

/-- For an asize that is a multiple of 16, the even-word rounding of
extend_heap requests exactly max(asize, 4096) bytes. -/
lemma growth_bytes (asize : Nat) (h16 : asize % 16 = 0) :
    evenWords (max asize 4096 / 8) * 8 = max asize 4096 := by
  rcases Nat.le_total asize 4096 with h | h
  · rw [max_eq_right h]
    rfl
  · rw [max_eq_left h]
    unfold evenWords
    split_ifs with hodd
    · omega
    · omega

/-- C3: get_list_index is a monotonic step function with doubling
thresholds 16, 32, ..., 4096 and catch-all index 9; consequently every
block large enough for a request maps to the request's bucket or a
higher one. -/
theorem c3_bucket_monotonicity :
    (∀ s1 s2, s1 < s2 → get_list_index s1 ≤ get_list_index s2) ∧
    (∀ size k, k ≤ 8 → (get_list_index size ≤ k ↔ size ≤ 16 * 2 ^ k)) ∧
    (∀ size, get_list_index size ≤ 9) ∧
    (∀ size, 4096 < size → get_list_index size = 9) ∧
    (∀ s bsize, s ≤ bsize → get_list_index s ≤ get_list_index bsize) := by
  refine ⟨?_, ?_, ?_, ?_, ?_⟩
  · intro s1 s2 h
    have h1 := gli_cases s1
    have h2 := gli_cases s2
    omega
  · intro size k hk
    have h := gli_cases size
    interval_cases k <;> (norm_num; omega)
  · intro size
    have h := gli_cases size
    omega
  · intro size h
    have hc := gli_cases size
    omega
  · intro s bsize h
    have h1 := gli_cases s
    have h2 := gli_cases bsize
    omega

theorem c3_bucket_monotonicity_witness :
    get_list_index 24 ≤ get_list_index 4000 ∧
    (get_list_index 100 ≤ 3 ↔ 100 ≤ 16 * 2 ^ 3) ∧
    get_list_index 5000 = 9 :=
  ⟨c3_bucket_monotonicity.1 24 4000 (by norm_num),
   c3_bucket_monotonicity.2.1 100 3 (by norm_num),
   c3_bucket_monotonicity.2.2.2.1 5000 (by norm_num)⟩

/-- C4 counterexample: at size = 2^64 - 16 the size_t addition
size + DSIZE wraps, the code computes asize = 0, while the spec formula
align(max(size + 16, 32)) yields 2^64; so the stated equality fails for
this size > 0. -/
theorem c4_adjusted_size_counterexample :
    0 < 2 ^ 64 - 16 ∧
    codeAsize (2 ^ 64 - 16) = 0 ∧
    specAdjustedSize (2 ^ 64 - 16) = 2 ^ 64 ∧
    codeAsize (2 ^ 64 - 16) ≠ specAdjustedSize (2 ^ 64 - 16) := by
  refine ⟨by norm_num, by decide, by decide, by decide⟩

/-- C4 (amended): mm_malloc returns NULL on size 0 with no state change,
and for every size > 0 whose size_t computation does not wrap
(size + 31 < 2^64) the two-branch adjusted size equals
align(max(size + 16, 32)). -/
theorem c4_adjusted_size :
    (∀ s : Heap, mm_malloc s 0 = some (s, none)) ∧
    (∀ size, 0 < size → size + 31 < U64 → codeAsize size = specAdjustedSize size) := by
  constructor
  · intro s
    simp [mm_malloc]
  · intro size hpos hlt
    rcases le_or_lt size 16 with h | h
    · have hmax : max (size + 16) 32 = 32 := max_eq_right (by omega)
      simp only [codeAsize, if_pos h, specAdjustedSize, hmax]
    · have h15 : (size + 16 + 15) % U64 = size + 31 := by
        rw [Nat.mod_eq_of_lt (by omega)]
      have hmax : max (size + 16) 32 = size + 16 := max_eq_left (by omega)
      simp only [codeAsize, if_neg (by omega : ¬ size ≤ 16), ALIGN, h15,
        specAdjustedSize, hmax]
      have hmd := Nat.mod_add_div (size + 31) 16
      omega

theorem c4_adjusted_size_witness :
    mm_malloc sInit 0 = some (sInit, none) ∧ codeAsize 100 = specAdjustedSize 100 :=
  ⟨c4_adjusted_size.1 sInit, c4_adjusted_size.2 100 (by norm_num) (by decide)⟩

/-- C7 counterexample: with a NULL pointer and new_size = 0, mm_realloc
takes the size == 0 branch and calls mm_free(NULL) — which dereferences
an invalid header (undefined behaviour, modelled none) — whereas
mm_malloc(0) is a defined no-op returning NULL; so resize(null, n) does
not behave as allocate(n) for every n. -/
theorem c7_resize_aliases_counterexample :
    mm_realloc sInit 0 0 = none ∧
    mm_malloc sInit 0 = some (sInit, none) ∧
    mm_realloc sInit 0 0 ≠ mm_malloc sInit 0 := by
  refine ⟨rfl, rfl, ?_⟩
  intro h
  rw [show mm_realloc sInit 0 0 = none from rfl,
    show mm_malloc sInit 0 = some (sInit, none) from rfl] at h
  exact Option.noConfusion h

/-- A member of some segregated list is a member of allSeg. -/
lemma mem_allSeg_of_mem_getD {segs : List (List Nat)} {a k : Nat}
    (h : a ∈ segs.getD k []) : a ∈ segs.foldr (· ++ ·) [] := by
  induction segs generalizing k with
  | nil => simp at h
  | cons l rest ih =>
    cases k with
    | zero => simp only [List.getD_cons_zero] at h; simp [List.mem_append, h]
    | succ k' =>
      simp only [List.getD_cons_succ] at h
      simp [List.mem_append, ih h]

/-- If no element of the list is admissible, the inner loop of find_fit
returns its accumulator unchanged. -/
lemma ffInner_skip (sz : Nat → Nat) (asize : Nat) :
    ∀ (l : List Nat) (best : Option Nat) (md : Nat),
    (∀ a ∈ l, sz a < asize) → ffInner sz asize l best md = (best, md) := by
  intro l
  induction l with
  | nil => intro best md _; rfl
  | cons x rest ih =>
    intro best md h
    have hx : ¬ asize ≤ sz x := by
      have := h x (List.mem_cons_self x rest)
      omega
    simp only [ffInner, if_neg hx]
    exact ih best md (fun a ha => h a (List.mem_cons_of_mem _ ha))

/-- Behaviour of the inner loop of find_fit: starting from a legal
accumulator, it either reports that nothing in the list is admissible,
or returns an admissible candidate whose leftover is minimal among the
list's admissible blocks (and the accumulator). -/
lemma ffInner_spec (sz : Nat → Nat) (asize : Nat) (ha : 0 < asize) :
    ∀ (l : List Nat) (best : Option Nat) (md : Nat),
    (∀ a ∈ l, sz a < U64) →
    ((best = none ∧ md = U64 - 1) ∨
      (∃ b, best = some b ∧ asize ≤ sz b ∧ md = sz b - asize ∧ 0 < md)) →
    ((∀ a ∈ l, sz a < asize) ∧ ffInner sz asize l best md = (best, md)) ∨
    (∃ bp, ffInner sz asize l best md = (some bp, sz bp - asize) ∧ asize ≤ sz bp ∧
      (bp ∈ l ∨ best = some bp) ∧ sz bp - asize ≤ md ∧
      (∀ a ∈ l, asize ≤ sz a → sz bp - asize ≤ sz a - asize)) := by
  intro l
  induction l with
  | nil => intro best md _ _; exact Or.inl ⟨by simp, rfl⟩
  | cons x rest ih =>
    intro best md hW hinv
    have hWrest : ∀ a ∈ rest, sz a < U64 := fun a ha' => hW a (List.mem_cons_of_mem _ ha')
    have hWx : sz x < U64 := hW x (List.mem_cons_self x rest)
    by_cases hx : asize ≤ sz x
    · by_cases hlt : sz x - asize < md
      · by_cases h0 : sz x - asize = 0
        · -- exact fit: return immediately
          right
          have hres : ffInner sz asize (x :: rest) best md = (some x, 0) := by
            simp only [ffInner, if_pos hx, if_pos hlt, if_pos h0]
          refine ⟨x, by rw [hres, h0], hx, Or.inl (List.mem_cons_self x rest), by omega, ?_⟩
          intro a _ _
          omega
        · -- better candidate: recurse with the new accumulator
          have heq : ffInner sz asize (x :: rest) best md
              = ffInner sz asize rest (some x) (sz x - asize) := by
            simp only [ffInner, if_pos hx, if_pos hlt, if_neg h0]
          have hrec := ih (some x) (sz x - asize) hWrest
            (Or.inr ⟨x, rfl, hx, rfl, Nat.pos_of_ne_zero h0⟩)
          rcases hrec with ⟨hnone, hres⟩ | ⟨bp, hres, hadm, hmem, hle, hmin⟩
          · right
            refine ⟨x, by rw [heq, hres], hx, Or.inl (List.mem_cons_self x rest), by omega, ?_⟩
            intro a hmem' hadm'
            rcases List.mem_cons.mp hmem' with h | h
            · subst h; omega
            · have := hnone a h; omega
          · right
            refine ⟨bp, by rw [heq, hres], hadm, ?_, by omega, ?_⟩
            · rcases hmem with h | h
              · exact Or.inl (List.mem_cons_of_mem _ h)
              · exact Or.inl (by rw [Option.some_inj.mp h.symm]; exact List.mem_cons_self x rest)
            · intro a hmem' hadm'
              rcases List.mem_cons.mp hmem' with h | h
              · subst h; omega
              · exact hmin a h hadm'
      · -- admissible but not better than the accumulator: skip
        have heq : ffInner sz asize (x :: rest) best md = ffInner sz asize rest best md := by
          simp only [ffInner, if_pos hx, if_neg hlt]
        rcases hinv with ⟨hb, hmd⟩ | ⟨b, hb, hadmb, hmd, hmdpos⟩
        · exfalso; omega
        · have hrec := ih best md hWrest (Or.inr ⟨b, hb, hadmb, hmd, hmdpos⟩)
          rcases hrec with ⟨hnone, hres⟩ | ⟨bp, hres, hadm, hmem, hle, hmin⟩
          · right
            refine ⟨b, ?_, hadmb, Or.inr hb, by omega, ?_⟩
            · rw [heq, hres, hb, hmd]
            · intro a hmem' hadm'
              rcases List.mem_cons.mp hmem' with h | h
              · subst h; omega
              · have := hnone a h; omega
          · right
            refine ⟨bp, by rw [heq, hres], hadm, ?_, by omega, ?_⟩
            · rcases hmem with h | h
              · exact Or.inl (List.mem_cons_of_mem _ h)
              · exact Or.inr (hb ▸ h)
            · intro a hmem' hadm'
              rcases List.mem_cons.mp hmem' with h | h
              · subst h; omega
              · exact hmin a h hadm'
    · -- inadmissible head: skip
      have heq : ffInner sz asize (x :: rest) best md = ffInner sz asize rest best md := by
        simp only [ffInner, if_neg hx]
      have hrec := ih best md hWrest hinv
      rcases hrec with ⟨hnone, hres⟩ | ⟨bp, hres, hadm, hmem, hle, hmin⟩
      · left
        refine ⟨?_, by rw [heq, hres]⟩
        intro a hmem'
        rcases List.mem_cons.mp hmem' with h | h
        · subst h; omega
        · exact hnone a h
      · right
        refine ⟨bp, by rw [heq, hres], hadm, ?_, hle, ?_⟩
        · rcases hmem with h | h
          · exact Or.inl (List.mem_cons_of_mem _ h)
          · exact Or.inr h
        · intro a hmem' hadm'
          rcases List.mem_cons.mp hmem' with h | h
          · subst h; omega
          · exact hmin a h hadm'

/-- If every bucket in the scanned range has no admissible block, the
outer loop of find_fit returns none. -/
lemma ffLoop_none (sz : Nat → Nat) (segs : List (List Nat)) (asize : Nat) :
    ∀ (fuel idx : Nat),
    (∀ k, idx ≤ k → k < idx + fuel → ∀ a ∈ segs.getD k [], sz a < asize) →
    ffLoop sz segs asize fuel idx = none := by
  intro fuel
  induction fuel with
  | zero => intro idx _; rfl
  | succ n ih =>
    intro idx h
    have hskip := ffInner_skip sz asize (segs.getD idx []) none (U64 - 1)
      (h idx le_rfl (by omega))
    simp only [ffLoop, hskip]
    exact ih (idx + 1) (fun k hk1 hk2 => h k (by omega) (by omega))

/-- If bucket j is the first bucket at or after idx holding an
admissible block, the outer loop returns a block of bucket j that is
admissible and has minimal leftover within bucket j. -/
lemma ffLoop_found (sz : Nat → Nat) (segs : List (List Nat)) (asize : Nat) (ha : 0 < asize) :
    ∀ (fuel idx j : Nat), idx ≤ j → j < idx + fuel →
    (∀ a ∈ segs.getD j [], sz a < U64) →
    (∃ a ∈ segs.getD j [], asize ≤ sz a) →
    (∀ k, idx ≤ k → k < j → ∀ a ∈ segs.getD k [], sz a < asize) →
    ∃ bp, ffLoop sz segs asize fuel idx = some bp ∧ bp ∈ segs.getD j [] ∧ asize ≤ sz bp ∧
      (∀ a ∈ segs.getD j [], asize ≤ sz a → sz bp - asize ≤ sz a - asize) := by
  intro fuel
  induction fuel with
  | zero => intro idx j h1 h2 _ _ _; omega
  | succ n ih =>
    intro idx j hij hj hW hadm hbef
    rcases Nat.eq_or_lt_of_le hij with heq | hlt
    · subst heq
      have hspec := ffInner_spec sz asize ha (segs.getD idx []) none (U64 - 1) hW
        (Or.inl ⟨rfl, rfl⟩)
      rcases hspec with ⟨hnone, _⟩ | ⟨bp, hres, hadm', hmem, _, hmin⟩
      · rcases hadm with ⟨a, hamem, haadm⟩
        have := hnone a hamem
        omega
      · have hmem' : bp ∈ segs.getD idx [] := by
          rcases hmem with h | h
          · exact h
          · exact absurd h (by simp)
        exact ⟨bp, by simp only [ffLoop, hres], hmem', hadm', hmin⟩
    · have hskip := ffInner_skip sz asize (segs.getD idx []) none (U64 - 1)
        (hbef idx le_rfl hlt)
      simp only [ffLoop, hskip]
      exact ih (idx + 1) j hlt (by omega) hW hadm
        (fun k hk1 hk2 => hbef k (by omega) hk2)

/-- C1: find_fit scans buckets upward from get_list_index(asize); if no
bucket in range holds a block of size at least asize it returns none;
otherwise it returns a block of the first bucket holding an admissible
block — never a later bucket — minimizing the leftover size - asize
within that bucket, and an exact fit whenever that bucket has one. -/
theorem c1_find_fit_policy (s : Heap) (asize : Nat) (ha : 0 < asize)
    (hW : ∀ a ∈ allSeg s, sizeAt s a < U64) :
    ((∀ k, get_list_index asize ≤ k → k < 10 → ∀ a ∈ bucket s k, sizeAt s a < asize) →
      find_fit s asize = none) ∧
    (∀ j, get_list_index asize ≤ j → j < 10 →
      (∃ a ∈ bucket s j, asize ≤ sizeAt s a) →
      (∀ k, get_list_index asize ≤ k → k < j → ∀ a ∈ bucket s k, sizeAt s a < asize) →
      ∃ bp, find_fit s asize = some bp ∧ bp ∈ bucket s j ∧ asize ≤ sizeAt s bp ∧
        (∀ a ∈ bucket s j, asize ≤ sizeAt s a →
          sizeAt s bp - asize ≤ sizeAt s a - asize) ∧
        ((∃ a ∈ bucket s j, sizeAt s a = asize) → sizeAt s bp = asize)) := by
  have hstart : get_list_index asize ≤ 9 := by
    have := gli_cases asize
    omega
  have hfuel : get_list_index asize + (10 - get_list_index asize) = 10 := by omega
  constructor
  · intro h
    unfold find_fit
    exact ffLoop_none (sizeAt s) s.segs asize (10 - get_list_index asize)
      (get_list_index asize) (fun k hk1 hk2 => h k hk1 (by omega))
  · intro j hj1 hj2 hadm hbef
    have hWj : ∀ a ∈ s.segs.getD j [], sizeAt s a < U64 :=
      fun a ha' => hW a (mem_allSeg_of_mem_getD ha')
    have := ffLoop_found (sizeAt s) s.segs asize ha (10 - get_list_index asize)
      (get_list_index asize) j hj1 (by omega) hWj hadm hbef
    rcases this with ⟨bp, hres, hmem, hadm', hmin⟩
    refine ⟨bp, hres, hmem, hadm', hmin, ?_⟩
    intro ⟨a, hamem, haeq⟩
    have := hmin a hamem (le_of_eq haeq.symm)
    omega

theorem c1_find_fit_policy_witness :
    ∃ bp, find_fit sM1 64 = some bp ∧ bp ∈ bucket sM1 8 ∧ 64 ≤ sizeAt sM1 bp ∧
      (∀ a ∈ bucket sM1 8, 64 ≤ sizeAt sM1 a →
        sizeAt sM1 bp - 64 ≤ sizeAt sM1 a - 64) ∧
      ((∃ a ∈ bucket sM1 8, sizeAt sM1 a = 64) → sizeAt sM1 bp = 64) :=
  (c1_find_fit_policy sM1 64 (by norm_num) (by decide)).2 8 (by decide) (by norm_num)
    (by decide) (by decide)

lemma getD_append_len (l : List Block) (x d : Block) : (l ++ [x]).getD l.length d = x := by
  simp [List.getD]

/-- C10: a block returned by find_fit always has stored size at least
asize; in the heap-growth path of mm_malloc the block handed to place
(the coalesce result of the extension for max(asize, 4096) bytes) also
has size at least asize; and consequently the size_t subtraction
csize - asize of place equals the mathematical difference, never
wrapping, whenever asize <= csize. -/
theorem c10_place_no_underflow :
    (∀ (s : Heap) (asize bp : Nat), find_fit s asize = some bp → asize ≤ sizeAt s bp) ∧
    (∀ (s s' : Heap) (size bp : Nat), 0 < size → (∀ b ∈ s.blocks, 0 < b.size) →
      extend_heap s (max (codeAsize size) 4096 / 8) = (s', some bp) →
      codeAsize size ≤ sizeAt s' bp) ∧
    (∀ csize asize : Nat, asize ≤ csize → csize < U64 → sub64 csize asize = csize - asize) := by
  refine ⟨fun s asize bp h => find_fit_some_adm s asize bp h, ?_, ?_⟩
  · intro s s' size bp hsz hpos hext
    have h16 := codeAsize_mod16 size
    have hbytes := growth_bytes (codeAsize size) h16
    unfold extend_heap at hext
    by_cases hcap : s.cap < s.brk + evenWords (max (codeAsize size) 4096 / 8) * 8
    · rw [if_pos hcap] at hext
      have : (none : Option Nat) = some bp := congrArg Prod.snd hext
      exact absurd this (by simp)
    · rw [if_neg hcap] at hext
      set s1 : Heap := { s with
        brk := s.brk + evenWords (max (codeAsize size) 4096 / 8) * 8
        blocks := s.blocks ++ [⟨evenWords (max (codeAsize size) 4096 / 8) * 8, false,
          fun _ => 0⟩] } with hs1
      have hlen : s.blocks.length < s1.blocks.length := by
        rw [hs1]
        simp
      have hpos1 : ∀ b ∈ s1.blocks, 0 < b.size := by
        intro b hb
        rw [hs1] at hb
        simp only [List.mem_append, List.mem_singleton] at hb
        rcases hb with hb | hb
        · exact hpos b hb
        · rw [hb]
          simp only []
          omega
      have hco := coalesce_size_ge s1 s.blocks.length hlen hpos1
      have hgd : (s1.blocks.getD s.blocks.length defaultB).size
          = evenWords (max (codeAsize size) 4096 / 8) * 8 := by
        rw [hs1]
        simp only []
        rw [getD_append_len]
      rw [hgd, hbytes] at hco
      have hs' : s' = (coalesce s1 s.blocks.length).1 :=
        (congrArg Prod.fst hext).symm
      have hbp : some ((coalesce s1 s.blocks.length).2) = some bp :=
        congrArg Prod.snd hext
      rw [hs', ← Option.some_inj.mp hbp]
      have : codeAsize size ≤ max (codeAsize size) 4096 := le_max_left _ _
      omega
  · intro csize asize h hlt
    unfold sub64
    have hU : 0 < U64 := by unfold U64; positivity
    rw [show csize + U64 - asize = (csize - asize) + U64 from by omega,
      Nat.add_mod_right, Nat.mod_eq_of_lt (by omega)]

theorem c10_place_no_underflow_witness :
    64 ≤ sizeAt sM1 112 ∧ codeAsize 5000 ≤ sizeAt wE.1 48 ∧ sub64 100 64 = 100 - 64 :=
  ⟨c10_place_no_underflow.1 sM1 64 112 rfl,
   c10_place_no_underflow.2.1 sInit wE.1 5000 48 (by norm_num) (by decide) rfl,
   c10_place_no_underflow.2.2 100 64 (by norm_num) (by decide)⟩

/-- coalesce, case 1: both neighbours allocated. -/
lemma coalesce_eq_case1 (s : Heap) (i : Nat)
    (hpa : (if i = 0 then true else (s.blocks.getD (i - 1) defaultB).alloc) = true)
    (hna : (if i + 1 < s.blocks.length then (s.blocks.getD (i + 1) defaultB).alloc
      else true) = true) :
    coalesce s i = (insert_block s (addrOf s i), addrOf s i) := by
  simp only [coalesce, hpa, hna]
  norm_num

/-- coalesce, case 2: only the next block is free. -/
lemma coalesce_eq_case2 (s : Heap) (i : Nat)
    (hpa : (if i = 0 then true else (s.blocks.getD (i - 1) defaultB).alloc) = true)
    (hna : (if i + 1 < s.blocks.length then (s.blocks.getD (i + 1) defaultB).alloc
      else true) = false) :
    coalesce s i = (insert_block
      { (remove_block s (addrOf s (i + 1))) with
        blocks := s.blocks.take i ++
          [⟨(s.blocks.getD i defaultB).size + (s.blocks.getD (i + 1) defaultB).size, false,
            mergeData (s.blocks.getD i defaultB) (s.blocks.getD (i + 1) defaultB)⟩] ++
          s.blocks.drop (i + 2) }
      (addrOf s i), addrOf s i) := by
  simp only [coalesce, hpa, hna]
  norm_num

/-- coalesce, case 3: only the previous block is free. -/
lemma coalesce_eq_case3 (s : Heap) (i : Nat)
    (hpa : (if i = 0 then true else (s.blocks.getD (i - 1) defaultB).alloc) = false)
    (hna : (if i + 1 < s.blocks.length then (s.blocks.getD (i + 1) defaultB).alloc
      else true) = true) :
    coalesce s i = (insert_block
      { (remove_block s (addrOf s (i - 1))) with
        blocks := s.blocks.take (i - 1) ++
          [⟨(s.blocks.getD (i - 1) defaultB).size + (s.blocks.getD i defaultB).size, false,
            mergeData (s.blocks.getD (i - 1) defaultB) (s.blocks.getD i defaultB)⟩] ++
          s.blocks.drop (i + 1) }
      (addrOf s (i - 1)), addrOf s (i - 1)) := by
  simp only [coalesce, hpa, hna]
  norm_num

/-- coalesce, case 4: both neighbours are free. -/
lemma coalesce_eq_case4 (s : Heap) (i : Nat)
    (hpa : (if i = 0 then true else (s.blocks.getD (i - 1) defaultB).alloc) = false)
    (hna : (if i + 1 < s.blocks.length then (s.blocks.getD (i + 1) defaultB).alloc
      else true) = false) :
    coalesce s i = (insert_block
      { (remove_block (remove_block s (addrOf s (i - 1))) (addrOf s (i + 1))) with
        blocks := s.blocks.take (i - 1) ++
          [⟨(s.blocks.getD (i - 1) defaultB).size + (s.blocks.getD i defaultB).size
              + (s.blocks.getD (i + 1) defaultB).size, false,
            mergeData ⟨(s.blocks.getD (i - 1) defaultB).size + (s.blocks.getD i defaultB).size,
                false, mergeData (s.blocks.getD (i - 1) defaultB) (s.blocks.getD i defaultB)⟩
              (s.blocks.getD (i + 1) defaultB)⟩] ++
          s.blocks.drop (i + 2) }
      (addrOf s (i - 1)), addrOf s (i - 1)) := by
  simp only [coalesce, hpa, hna]
  norm_num

lemma take_set_le {l : List Block} {n m : Nat} {a : Block} (h : m ≤ n) :
    (l.set n a).take m = l.take m := by
  rcases Nat.lt_or_ge m n with hlt | hge
  · exact List.take_set_of_lt a l hlt
  · have hmn : m = n := by omega
    subst hmn
    rw [List.set_eq_take_append_cons_drop]
    split
    · next hlen =>
      rw [List.take_append_of_le_length (by simp [List.length_take]; omega)]
      rw [List.take_take, min_self]
    · rfl

lemma getD_set_blk_ne (l : List Block) (j k : Nat) (b d : Block) (h : j ≠ k) :
    (l.set j b).getD k d = l.getD k d := by
  simp [List.getD, List.getElem?_set, h]

lemma getD_set_blk_self (l : List Block) (j : Nat) (b d : Block) (hj : j < l.length) :
    (l.set j b).getD j d = b := by
  simp [List.getD, List.getElem?_set, hj]

lemma getD_take_blk (l : List Block) (k j : Nat) (d : Block) (h : j < k) :
    (l.take k).getD j d = l.getD j d := by
  simp [List.getD, List.getElem?_take, h]

lemma getD_drop_blk (l : List Block) (r j : Nat) (d : Block) :
    (l.drop r).getD j d = l.getD (r + j) d := by
  simp [List.getD, List.getElem?_drop]

lemma getD_append_lt_blk (l1 l2 : List Block) (j : Nat) (d : Block) (h : j < l1.length) :
    (l1 ++ l2).getD j d = l1.getD j d := by
  simp [List.getD, List.getElem?_append_left h]

lemma getD_append_ge_blk (l1 l2 : List Block) (j : Nat) (d : Block) (h : l1.length ≤ j) :
    (l1 ++ l2).getD j d = l2.getD (j - l1.length) d := by
  simp [List.getD, List.getElem?_append_right h]

/-- The pairwise reading of the no-adjacent-free invariant. -/
lemma noAdjFree_pairs {l : List Block} (h : noAdjFree l) (j : Nat) (hj : j + 1 < l.length) :
    (l.getD j defaultB).alloc = true ∨ (l.getD (j + 1) defaultB).alloc = true := by
  have := List.chain'_iff_get.mp h j (by omega)
  rw [getD_eq_get l j defaultB (by omega), getD_eq_get l (j + 1) defaultB (by omega)]
  simpa [List.get_eq_getElem] using this

lemma noAdjFree_of_pairs {l : List Block}
    (h : ∀ j, j + 1 < l.length →
      (l.getD j defaultB).alloc = true ∨ (l.getD (j + 1) defaultB).alloc = true) :
    noAdjFree l := by
  apply List.chain'_iff_get.mpr
  intro j hj
  have := h j (by omega)
  rw [getD_eq_get l j defaultB (by omega), getD_eq_get l (j + 1) defaultB (by omega)] at this
  simpa [List.get_eq_getElem] using this

/-- Replacing the slice [lo, r) of a no-adjacent-free block sequence by
a single block keeps the invariant, provided the blocks bordering the
slice are allocated (or absent). -/
lemma noAdjFree_surgery (l : List Block) (lo r : Nat) (m : Block)
    (hlo : lo ≤ l.length) (hr : r ≤ l.length)
    (hadj : noAdjFree l)
    (hleft : lo = 0 ∨ (l.getD (lo - 1) defaultB).alloc = true)
    (hright : l.length ≤ r ∨ (l.getD r defaultB).alloc = true) :
    noAdjFree (l.take lo ++ m :: l.drop r) := by
  have hlen : (l.take lo).length = lo := by
    simp [List.length_take]
    omega
  apply noAdjFree_of_pairs
  intro j hj
  have hlen' : (l.take lo ++ m :: l.drop r).length = lo + 1 + (l.length - r) := by
    simp [List.length_append, hlen, List.length_drop]
    omega
  rcases Nat.lt_or_ge (j + 1) lo with h1 | h1
  · -- both inside the prefix
    rw [getD_append_lt_blk _ _ j _ (by omega), getD_append_lt_blk _ _ (j + 1) _ (by omega),
      getD_take_blk _ _ _ _ (by omega), getD_take_blk _ _ _ _ (by omega)]
    exact noAdjFree_pairs hadj j (by omega)
  · rcases Nat.lt_or_ge j lo with h2 | h2
    · -- j = lo - 1, j + 1 = lo: pair (last of prefix, m)
      have hj1 : j + 1 = lo := by omega
      left
      rw [getD_append_lt_blk _ _ j _ (by omega), getD_take_blk _ _ _ _ (by omega)]
      rcases hleft with h0 | h0
      · omega
      · have : j = lo - 1 := by omega
        rw [this]
        exact h0
    · rcases Nat.eq_or_lt_of_le h2 with h3 | h3
      · -- j = lo: pair (m, first of suffix)
        right
        rw [getD_append_ge_blk _ _ (j + 1) _ (by omega), hlen]
        rw [show j + 1 - lo = 1 from by omega]
        have : ((m :: l.drop r).getD 1 defaultB) = (l.drop r).getD 0 defaultB := rfl
        rw [this, getD_drop_blk]
        rcases hright with h0 | h0
        · exfalso
          rw [hlen'] at hj
          omega
        · rw [Nat.add_zero]
          exact h0
      · -- both inside the suffix
        rw [getD_append_ge_blk _ _ j _ (by omega), getD_append_ge_blk _ _ (j + 1) _ (by omega),
          hlen]
        have e1 : j - lo = (j - lo - 1) + 1 := by omega
        have e2 : j + 1 - lo = (j - lo) + 1 := by omega
        rw [e2, e1]
        have c1 : ((m :: l.drop r).getD ((j - lo - 1) + 1) defaultB)
            = (l.drop r).getD (j - lo - 1) defaultB := rfl
        have c2 : ((m :: l.drop r).getD ((j - lo - 1) + 1 + 1) defaultB)
            = (l.drop r).getD (j - lo - 1 + 1) defaultB := rfl
        rw [c1, c2, getD_drop_blk, getD_drop_blk]
        have := noAdjFree_pairs hadj (r + (j - lo - 1)) (by
          rw [hlen'] at hj
          omega)
        rw [show r + (j - lo - 1) + 1 = r + (j - lo - 1 + 1) from by omega] at this
        exact this

lemma map_size_set (l : List Block) :
    ∀ (i : Nat) (b' : Block), b'.size = (l.getD i defaultB).size →
    (l.set i b').map Block.size = l.map Block.size := by
  induction l with
  | nil => intro i b' _; rfl
  | cons b rest ih =>
    intro i b' h
    cases i with
    | zero =>
      simp only [List.getD_cons_zero] at h
      simp [List.set_cons_zero, h]
    | succ j =>
      simp only [List.getD_cons_succ] at h
      simp only [List.set_cons_succ, List.map_cons]
      rw [ih j b' h]

lemma sumSizes_take_of_map_eq (l1 l2 : List Block) (h : l1.map Block.size = l2.map Block.size) :
    ∀ j, sumSizes (l1.take j) = sumSizes (l2.take j) := by
  intro j
  unfold sumSizes
  rw [List.map_take, List.map_take, h]

lemma addrOf_set_same_size (s : Heap) (i : Nat) (b' : Block)
    (h : b'.size = (s.blocks.getD i defaultB).size) (j : Nat) :
    addrOf { s with blocks := s.blocks.set i b' } j = addrOf s j := by
  unfold addrOf
  simp only []
  rw [sumSizes_take_of_map_eq (s.blocks.set i b') s.blocks (map_size_set s.blocks i b' h) j]

lemma getD_set_ne_seg (l : List (List Nat)) (j k : Nat) (L : List Nat) (h : j ≠ k) :
    (l.set j L).getD k [] = l.getD k [] := by
  simp [List.getD, List.getElem?_set, h]

/-- Removing one address keeps other addresses in their buckets. -/
lemma mem_bucket_remove (s : Heap) (a x k : Nat) (hx : x ≠ a)
    (hmem : x ∈ bucket s k) : x ∈ bucket (remove_block s a) k := by
  simp only [remove_block, bucket] at hmem ⊢
  by_cases he : get_list_index (sizeAt s a) = k
  · subst he
    by_cases hlt : get_list_index (sizeAt s a) < s.segs.length
    · rw [getD_set_self _ _ _ hlt]
      exact (List.mem_erase_of_ne hx).mpr hmem
    · rw [List.set_eq_of_length_le (by omega)]
      exact hmem
  · rw [getD_set_ne_seg _ _ _ _ he]
    exact hmem

lemma bucket_remove_blocks (s : Heap) (bl : List Block) (k : Nat) :
    bucket { s with blocks := bl } k = bucket s k := rfl

lemma prevFreeB_iff (s : Heap) (i : Nat) :
    prevFreeB s i = true ↔ i ≠ 0 ∧ (s.blocks.getD (i - 1) defaultB).alloc = false := by
  simp [prevFreeB]

lemma nextFreeB_iff (s : Heap) (i : Nat) :
    nextFreeB s i = true ↔
      i + 1 < s.blocks.length ∧ (s.blocks.getD (i + 1) defaultB).alloc = false := by
  simp [nextFreeB]

lemma prevFreeB_false_iff (s : Heap) (i : Nat) :
    prevFreeB s i = false ↔ i = 0 ∨ (s.blocks.getD (i - 1) defaultB).alloc = true := by
  rw [Bool.eq_false_iff, Ne, prevFreeB_iff]
  constructor
  · intro h
    by_cases h0 : i = 0
    · exact Or.inl h0
    · right
      cases halloc : (s.blocks.getD (i - 1) defaultB).alloc
      · exact absurd ⟨h0, halloc⟩ h
      · rfl
  · rintro (h | h) ⟨h1, h2⟩
    · exact h1 h
    · rw [h] at h2
      exact Bool.noConfusion h2

lemma nextFreeB_false_iff (s : Heap) (i : Nat) :
    nextFreeB s i = false ↔
      s.blocks.length ≤ i + 1 ∨ (s.blocks.getD (i + 1) defaultB).alloc = true := by
  rw [Bool.eq_false_iff, Ne, nextFreeB_iff]
  constructor
  · intro h
    by_cases h0 : i + 1 < s.blocks.length
    · right
      cases halloc : (s.blocks.getD (i + 1) defaultB).alloc
      · exact absurd ⟨h0, halloc⟩ h
      · rfl
    · exact Or.inl (by omega)
  · rintro (h | h) ⟨h1, h2⟩
    · omega
    · rw [h] at h2
      exact Bool.noConfusion h2

lemma idxAlloc_some_imp (s : Heap) (p i : Nat) (h : idxAlloc s p = some i) :
    idxOfAddr s p = some i ∧ (s.blocks.getD i defaultB).alloc = true := by
  unfold idxAlloc at h
  cases hr : idxOfAddr s p with
  | none => rw [hr] at h; exact absurd h (by simp)
  | some j =>
    rw [hr] at h
    replace h : (if (s.blocks.getD j defaultB).alloc = true then some j else none)
        = some i := h
    by_cases hb : (s.blocks.getD j defaultB).alloc = true
    · rw [if_pos hb] at h
      have := Option.some_inj.mp h
      subst this
      exact ⟨rfl, hb⟩
    · rw [if_neg hb] at h
      exact absurd h (by simp)

/-- The size_t subtraction csize - asize equals the mathematical
difference when it cannot underflow. -/
lemma sub64_of_le (csize asize : Nat) (h : asize ≤ csize) (hlt : csize < U64) :
    sub64 csize asize = csize - asize := by
  unfold sub64
  have hU : 0 < U64 := by unfold U64; positivity
  rw [show csize + U64 - asize = (csize - asize) + U64 from by omega,
    Nat.add_mod_right, Nat.mod_eq_of_lt (by omega)]

/-- Looking up the address just after the first of two blocks replacing
index i yields the second. -/
lemma lookupB_mid2 (s t : Heap) (i : Nat) (m1 m2 : Block) (tail : List Block)
    (hbase : t.base = s.base)
    (hblocks : t.blocks = s.blocks.take i ++ m1 :: m2 :: tail)
    (hpos : ∀ b ∈ s.blocks.take i, 0 < b.size) (hm1 : 0 < m1.size) :
    lookupB t (addrOf s i + m1.size) = some m2 := by
  unfold lookupB
  rw [hblocks, hbase]
  rw [findBlk_past_front (s.blocks.take i) (m1 :: m2 :: tail) (s.base + 32)
    (addrOf s i + m1.size) hpos (by unfold addrOf; omega)]
  rw [show s.base + 32 + sumSizes (s.blocks.take i) = addrOf s i from rfl]
  rw [findBlk_cons_ne (addrOf s i + m1.size) (addrOf s i) m1 (m2 :: tail) (by omega)]
  rw [findBlk_cons_self]
  rfl

lemma sizeAt_mid2 (s t : Heap) (i : Nat) (m1 m2 : Block) (tail : List Block)
    (hbase : t.base = s.base)
    (hblocks : t.blocks = s.blocks.take i ++ m1 :: m2 :: tail)
    (hpos : ∀ b ∈ s.blocks.take i, 0 < b.size) (hm1 : 0 < m1.size) :
    sizeAt t (addrOf s i + m1.size) = m2.size := by
  unfold sizeAt
  rw [lookupB_mid2 s t i m1 m2 tail hbase hblocks hpos hm1]
  rfl

/-- The split branch of place, written out. -/
lemma place_eq_split (s : Heap) (i asize : Nat)
    (h : 32 ≤ sub64 (s.blocks.getD i defaultB).size asize) :
    place s i asize = insert_block
      { (remove_block s (addrOf s i)) with
        blocks := s.blocks.take i ++ [⟨asize, true, (s.blocks.getD i defaultB).data⟩,
          ⟨(s.blocks.getD i defaultB).size - asize, false,
            fun k => (s.blocks.getD i defaultB).data (asize + k)⟩] ++
          s.blocks.drop (i + 1) }
      (addrOf s i + asize) := by
  simp only [place, if_pos h]
  rfl

/-- The no-split branch of place, written out. -/
lemma place_eq_nosplit (s : Heap) (i asize : Nat)
    (h : ¬ 32 ≤ sub64 (s.blocks.getD i defaultB).size asize) :
    place s i asize = { (remove_block s (addrOf s i)) with
      blocks := s.blocks.set i ⟨(s.blocks.getD i defaultB).size, true,
        (s.blocks.getD i defaultB).data⟩ } := by
  simp only [place, if_neg h]
  rfl

/-- Under well-formedness, a block's address occurs nowhere in the seg
lists when it is allocated, exactly once (in its size class) when free;
an address strictly inside a block occurs nowhere. -/
lemma occ_inside_zero (s : Heap) (hwf : wfH s) (i x : Nat) (hi : i < s.blocks.length)
    (h1 : addrOf s i < x) (h2 : x < addrOf s i + (s.blocks.getD i defaultB).size) :
    occCount s x = 0 := by
  by_contra h
  have hx := mem_allSeg_of_occ_pos s x (Nat.pos_of_ne_zero h)
  have hres := hwf.2.1 x hx
  unfold isFreeAddr at hres
  cases hl : lookupB s x with
  | none => rw [hl] at hres; simp at hres
  | some b =>
    obtain ⟨j, hj, hxj, _, _⟩ := lookupB_some_imp s x b hl
    exact addr_inside_not_block s i x hi (pos_of_wf s hwf) h1 h2 j hj hxj.symm

/-- C5: place removes the target block from its bucket list; when the
remainder csize - asize is at least the minimal block size 32 it marks
the front asize bytes allocated, writes a free block of size
csize - asize behind it and inserts that remainder (exactly once, into
the bucket of its size class); otherwise it allocates the entire block
and inserts nothing. -/
theorem c5_place_split (s : Heap) (bp i asize csize : Nat)
    (hwf : wfH s)
    (hidx : idxOfAddr s bp = some i)
    (hcs : (s.blocks.getD i defaultB).size = csize)
    (hfree : (s.blocks.getD i defaultB).alloc = false)
    (hasize : 0 < asize)
    (hle : asize ≤ csize) :
    occCount (place s i asize) bp = 0 ∧
    (32 ≤ csize - asize →
      (place s i asize).blocks =
        s.blocks.take i ++ ⟨asize, true, (s.blocks.getD i defaultB).data⟩ ::
          ⟨csize - asize, false, fun k => (s.blocks.getD i defaultB).data (asize + k)⟩ ::
          s.blocks.drop (i + 1) ∧
      occCount (place s i asize) (bp + asize) = 1 ∧
      (bp + asize) ∈ bucket (place s i asize) (get_list_index (csize - asize))) ∧
    (csize - asize < 32 →
      (place s i asize).blocks =
        s.blocks.set i ⟨csize, true, (s.blocks.getD i defaultB).data⟩) ∧
    (∀ x, x ≠ bp → x ≠ bp + asize → occCount (place s i asize) x = occCount s x) := by
  obtain ⟨hi, hbp⟩ := idxOfAddr_some_imp s bp i hidx
  subst hbp
  have hpos := pos_of_wf s hwf
  have hseg10 := hwf.1
  have hblki := hwf.2.2 i hi
  have h32 : 32 ≤ csize := by
    have := hblki.1.1
    omega
  have hUlt : csize < U64 := by
    have := hblki.1.2
    omega
  have hocc1 : occCount s (addrOf s i) = 1 := ((hblki.2.1) hfree).1
  have hmem : addrOf s i ∈ bucket s (get_list_index (s.blocks.getD i defaultB).size) :=
    ((hblki.2.1) hfree).2
  have hsz : sizeAt s (addrOf s i) = csize := by
    rw [sizeAt_addrOf s i hi hpos, hcs]
  have hglilt : ∀ m : Nat, get_list_index m < s.segs.length := by
    intro m
    have := gli_cases m
    omega
  have hsub : sub64 (s.blocks.getD i defaultB).size asize = csize - asize := by
    rw [hcs]
    exact sub64_of_le csize asize hle hUlt
  -- occurrence counts after the removal step
  have hr0 : occCount (remove_block s (addrOf s i)) (addrOf s i) = 0 := by
    rw [occCount_remove_self s (addrOf s i) (by rw [hsz]; exact hglilt csize)
      (by rw [hsz, ← hcs]; exact hmem), hocc1]
  have hrne : ∀ x, x ≠ addrOf s i →
      occCount (remove_block s (addrOf s i)) x = occCount s x := by
    intro x hx
    exact occCount_remove_ne s (addrOf s i) x hx (by rw [hsz]; exact hglilt csize)
  by_cases hspl : 32 ≤ csize - asize
  · -- split case
    have hspl' : 32 ≤ sub64 (s.blocks.getD i defaultB).size asize := by omega
    rw [place_eq_split s i asize hspl']
    set s2 : Heap := { (remove_block s (addrOf s i)) with
      blocks := s.blocks.take i ++ [⟨asize, true, (s.blocks.getD i defaultB).data⟩,
        ⟨(s.blocks.getD i defaultB).size - asize, false,
          fun k => (s.blocks.getD i defaultB).data (asize + k)⟩] ++
        s.blocks.drop (i + 1) } with hs2
    have hs2blocks : s2.blocks = s.blocks.take i ++
        (⟨asize, true, (s.blocks.getD i defaultB).data⟩ : Block) ::
        (⟨(s.blocks.getD i defaultB).size - asize, false,
          fun k => (s.blocks.getD i defaultB).data (asize + k)⟩ : Block) ::
        s.blocks.drop (i + 1) := by
      rw [hs2]
      simp [List.append_assoc]
    have hs2base : s2.base = s.base := rfl
    have hs2segs : occCount s2 = occCount (remove_block s (addrOf s i)) := rfl
    have hs2len : s2.segs.length = s.segs.length := by
      rw [hs2]
      exact segs_length_remove s (addrOf s i)
    have hsz2 : sizeAt s2 (addrOf s i + asize) = csize - asize := by
      have := sizeAt_mid2 s s2 i
        ⟨asize, true, (s.blocks.getD i defaultB).data⟩
        ⟨(s.blocks.getD i defaultB).size - asize, false,
          fun k => (s.blocks.getD i defaultB).data (asize + k)⟩
        (s.blocks.drop (i + 1)) hs2base hs2blocks
        (fun b hb => hpos b (List.mem_of_mem_take hb)) hasize
      rw [hcs] at this
      exact this
    have hinside : occCount s (addrOf s i + asize) = 0 := by
      refine occ_inside_zero s hwf i (addrOf s i + asize) hi (by omega) ?_
      rw [hcs]
      omega
    have hocc2 : occCount s2 (addrOf s i + asize) = 0 := by
      rw [hs2segs, hrne (addrOf s i + asize) (by omega), hinside]
    have hglis2 : get_list_index (sizeAt s2 (addrOf s i + asize)) < s2.segs.length := by
      rw [hsz2, hs2len]
      exact hglilt (csize - asize)
    refine ⟨?_, fun _ => ⟨?_, ?_, ?_⟩, fun hlt => absurd hspl (by omega), ?_⟩
    · rw [occCount_insert_ne s2 (addrOf s i + asize) (addrOf s i) (by omega) hglis2,
        hs2segs, hr0]
    · rw [blocks_insert_block, hs2blocks, hcs]
    · rw [occCount_insert_self s2 (addrOf s i + asize) hglis2, hocc2]
    · have := mem_bucket_insert_self s2 (addrOf s i + asize) hglis2
      rw [hsz2] at this
      exact this
    · intro x hx1 hx2
      rw [occCount_insert_ne s2 (addrOf s i + asize) x hx2 hglis2, hs2segs,
        hrne x hx1]
  · -- no-split case
    have hspl' : ¬ 32 ≤ sub64 (s.blocks.getD i defaultB).size asize := by omega
    rw [place_eq_nosplit s i asize hspl']
    refine ⟨?_, fun h => absurd h (by omega), fun _ => ?_, ?_⟩
    · rw [show occCount { (remove_block s (addrOf s i)) with
          blocks := s.blocks.set i ⟨(s.blocks.getD i defaultB).size, true,
            (s.blocks.getD i defaultB).data⟩ } (addrOf s i)
          = occCount (remove_block s (addrOf s i)) (addrOf s i) from rfl, hr0]
    · rw [show ({ (remove_block s (addrOf s i)) with
          blocks := s.blocks.set i ⟨(s.blocks.getD i defaultB).size, true,
            (s.blocks.getD i defaultB).data⟩ } : Heap).blocks
          = s.blocks.set i ⟨(s.blocks.getD i defaultB).size, true,
            (s.blocks.getD i defaultB).data⟩ from rfl, hcs]
    · intro x hx1 _
      rw [show occCount { (remove_block s (addrOf s i)) with
          blocks := s.blocks.set i ⟨(s.blocks.getD i defaultB).size, true,
            (s.blocks.getD i defaultB).data⟩ } x
          = occCount (remove_block s (addrOf s i)) x from rfl, hrne x hx1]

theorem c5_place_split_witness :
    occCount (place sInit 0 64) 48 = 0 ∧
    (32 ≤ 4096 - 64 →
      (place sInit 0 64).blocks =
        sInit.blocks.take 0 ++ ⟨64, true, (sInit.blocks.getD 0 defaultB).data⟩ ::
          ⟨4096 - 64, false, fun k => (sInit.blocks.getD 0 defaultB).data (64 + k)⟩ ::
          sInit.blocks.drop (0 + 1) ∧
      occCount (place sInit 0 64) (48 + 64) = 1 ∧
      (48 + 64) ∈ bucket (place sInit 0 64) (get_list_index (4096 - 64))) ∧
    (4096 - 64 < 32 →
      (place sInit 0 64).blocks =
        sInit.blocks.set 0 ⟨4096, true, (sInit.blocks.getD 0 defaultB).data⟩) ∧
    (∀ x, x ≠ 48 → x ≠ 48 + 64 → occCount (place sInit 0 64) x = occCount sInit x) :=
  c5_place_split sInit 48 0 64 4096 (by decide) (by decide) (by decide) (by decide)
    (by decide) (by decide)

/-- C2: a valid release marks the block free, removes free physical
neighbours from their lists, merges them into a single block covering
the combined span — at the predecessor's address when the predecessor
was free — inserts that block exactly once, never inserting the
intermediate merge states, and afterwards no two physically adjacent
blocks are both free. -/
theorem c2_release_no_adjacent_free (s : Heap) (p i : Nat)
    (hwf : wfH s) (hadj : noAdjFree s.blocks) (hidx : idxAlloc s p = some i) :
    ∃ s', mm_free s p = some s' ∧ noAdjFree s'.blocks ∧
      (∃ m, lookupB s' (mergedAddr s i) = some m ∧ m.alloc = false ∧
        m.size = mergedSize s i) ∧
      occCount s' (mergedAddr s i) = 1 ∧
      (prevFreeB s i = true → mergedAddr s i = addrOf s (i - 1) ∧ occCount s' p = 0) ∧
      (prevFreeB s i = false → mergedAddr s i = p) ∧
      (nextFreeB s i = true → occCount s' (addrOf s (i + 1)) = 0) := by
  obtain ⟨hio, halloc⟩ := idxAlloc_some_imp s p i hidx
  obtain ⟨hi, hp⟩ := idxOfAddr_some_imp s p i hio
  have hpos := pos_of_wf s hwf
  have hseg10 := hwf.1
  have hwfB := hwf.2.2
  have hoccP : occCount s (addrOf s i) = 0 := (hwfB i hi).2.2 halloc
  have hglilt : ∀ m : Nat, get_list_index m < s.segs.length := by
    intro m
    have := gli_cases m
    omega
  set b1 : Block := ⟨(s.blocks.getD i defaultB).size, false,
    (s.blocks.getD i defaultB).data⟩ with hb1
  set s1 : Heap := { s with blocks := s.blocks.set i b1 } with hs1
  have hfree : mm_free s p = some (freeAt s i) := by
    unfold mm_free
    rw [hidx]
    rfl
  have hfa : freeAt s i = (coalesce s1 i).1 := rfl
  have hn : s1.blocks.length = s.blocks.length := by
    rw [hs1]
    simp
  have haddr1 : ∀ j, addrOf s1 j = addrOf s j := fun j =>
    addrOf_set_same_size s i b1 rfl j
  have hpos1 : ∀ b ∈ s1.blocks, 0 < b.size := by
    intro b hb
    rcases List.mem_or_eq_of_mem_set hb with h | h
    · exact hpos b h
    · have h32 := (hwfB i hi).1.1
      rw [h, hb1]
      simpa using (by omega : 0 < (s.blocks.getD i defaultB).size)
  have hgetD1i : s1.blocks.getD i defaultB = b1 := by
    rw [hs1]
    exact getD_set_blk_self s.blocks i b1 defaultB hi
  have hgetD1ne : ∀ j, j ≠ i → s1.blocks.getD j defaultB = s.blocks.getD j defaultB := by
    intro j hj
    rw [hs1]
    exact getD_set_blk_ne s.blocks i j b1 defaultB (Ne.symm hj)
  have hs1blocks : s1.blocks = s.blocks.set i b1 := rfl
  have hocc1 : ∀ x, occCount s1 x = occCount s x := fun _ => rfl
  have hbucket1 : ∀ k, bucket s1 k = bucket s k := fun _ => rfl
  have hseglen1 : s1.segs.length = s.segs.length := rfl
  have hsz1 : ∀ j, j < s.blocks.length → sizeAt s1 (addrOf s j)
      = (s1.blocks.getD j defaultB).size := by
    intro j hj
    have := sizeAt_addrOf s1 j (by omega) hpos1
    rw [haddr1 j] at this
    exact this
  cases hpf : prevFreeB s i with
  | false =>
    -- previous neighbour allocated (or prologue)
    have hleft : i = 0 ∨ (s.blocks.getD (i - 1) defaultB).alloc = true :=
      (prevFreeB_false_iff s i).mp hpf
    have hpa : (if i = 0 then true else (s1.blocks.getD (i - 1) defaultB).alloc) = true := by
      by_cases h0 : i = 0
      · rw [if_pos h0]
      · rw [if_neg h0, hgetD1ne (i - 1) (by omega)]
        rcases hleft with h | h
        · exact absurd h h0
        · exact h
    cases hnf : nextFreeB s i with
    | false =>
      -- case 1: no coalesce
      have hright : s.blocks.length ≤ i + 1 ∨ (s.blocks.getD (i + 1) defaultB).alloc
          = true := (nextFreeB_false_iff s i).mp hnf
      have hna : (if i + 1 < s1.blocks.length then (s1.blocks.getD (i + 1) defaultB).alloc
          else true) = true := by
        rw [hn]
        by_cases hlt : i + 1 < s.blocks.length
        · rw [if_pos hlt, hgetD1ne (i + 1) (by omega)]
          rcases hright with h | h
          · omega
          · exact h
        · rw [if_neg hlt]
      have hceq := coalesce_eq_case1 s1 i hpa hna
      have hma : mergedAddr s i = addrOf s i := by
        simp [mergedAddr, hpf]
      have hms : mergedSize s i = (s.blocks.getD i defaultB).size := by
        simp [mergedSize, hpf, hnf]
      refine ⟨insert_block s1 (addrOf s1 i), by rw [hfree, hfa, hceq], ?_, ?_, ?_, ?_, ?_, ?_⟩
      · -- no adjacent free
        rw [blocks_insert_block]
        have hset : s1.blocks = s.blocks.take i ++ b1 :: s.blocks.drop (i + 1) := by
          rw [hs1]
          simp only []
          rw [List.set_eq_take_append_cons_drop, if_pos hi]
        rw [hset]
        exact noAdjFree_surgery s.blocks i (i + 1) b1 (by omega) (by omega) hadj hleft hright
      · refine ⟨b1, ?_, rfl, by rw [hms, hb1]⟩
        rw [hma, lookupB_insert_block, ← haddr1 i,
          lookupB_addrOf s1 i (by omega) hpos1, hgetD1i]
      · rw [hma, ← haddr1 i, occCount_insert_self s1 (addrOf s1 i)
          (by rw [hseglen1]; exact hglilt _), haddr1 i, hocc1, hoccP]
      · intro h
        exact Bool.noConfusion h
      · intro _
        rw [hma, hp]
      · intro h
        exact Bool.noConfusion h
    | true =>
      -- case 2: next free
      have hnlt : i + 1 < s.blocks.length := ((nextFreeB_iff s i).mp hnf).1
      have hnfree : (s.blocks.getD (i + 1) defaultB).alloc = false :=
        ((nextFreeB_iff s i).mp hnf).2
      have hna : (if i + 1 < s1.blocks.length then (s1.blocks.getD (i + 1) defaultB).alloc
          else true) = false := by
        rw [hn, if_pos hnlt, hgetD1ne (i + 1) (by omega)]
        exact hnfree
      have hceq := coalesce_eq_case2 s1 i hpa hna
      have hma : mergedAddr s i = addrOf s i := by
        simp [mergedAddr, hpf]
      have hms : mergedSize s i
          = (s.blocks.getD i defaultB).size + (s.blocks.getD (i + 1) defaultB).size := by
        simp [mergedSize, hpf, hnf]
      -- facts about the next block in the seg lists
      have hoccN : occCount s (addrOf s (i + 1)) = 1 := ((hwfB (i + 1) hnlt).2.1 hnfree).1
      have hmemN : addrOf s (i + 1) ∈ bucket s
          (get_list_index (s.blocks.getD (i + 1) defaultB).size) :=
        ((hwfB (i + 1) hnlt).2.1 hnfree).2
      have hszN : sizeAt s1 (addrOf s (i + 1)) = (s.blocks.getD (i + 1) defaultB).size := by
        rw [hsz1 (i + 1) hnlt, hgetD1ne (i + 1) (by omega)]
      have hanene : addrOf s (i + 1) ≠ addrOf s i := by
        have := addrOf_strict s i (i + 1) (by omega) hi hpos
        omega
      set r1 : Heap := remove_block s1 (addrOf s1 (i + 1)) with hr1
      have hoccR : occCount r1 (addrOf s (i + 1)) = 0 := by
        rw [hr1, haddr1 (i + 1), occCount_remove_self s1 (addrOf s (i + 1))
          (by rw [hseglen1]; exact hglilt _)
          (by rw [hszN, hbucket1]; exact hmemN), hocc1, hoccN]
      have hoccRne : ∀ x, x ≠ addrOf s (i + 1) → occCount r1 x = occCount s x := by
        intro x hx
        rw [hr1, haddr1 (i + 1), occCount_remove_ne s1 (addrOf s (i + 1)) x hx
          (by rw [hseglen1]; exact hglilt _), hocc1]
      set merged : Block := ⟨(s1.blocks.getD i defaultB).size
          + (s1.blocks.getD (i + 1) defaultB).size, false,
          mergeData (s1.blocks.getD i defaultB) (s1.blocks.getD (i + 1) defaultB)⟩
        with hmerged
      set s3 : Heap := { r1 with
        blocks := s1.blocks.take i ++ [merged] ++ s1.blocks.drop (i + 2) } with hs3
      have hmsize : merged.size
          = (s.blocks.getD i defaultB).size + (s.blocks.getD (i + 1) defaultB).size := by
        show (s1.blocks.getD i defaultB).size + (s1.blocks.getD (i + 1) defaultB).size = _
        rw [hgetD1i, hgetD1ne (i + 1) (by omega), hb1]
      have hs3blocks : s3.blocks = s.blocks.take i ++ merged :: s.blocks.drop (i + 2) := by
        show s1.blocks.take i ++ [merged] ++ s1.blocks.drop (i + 2) = _
        rw [hs1blocks, take_set_le (le_refl i), List.drop_set_of_lt b1 s.blocks (by omega)]
        simp [List.append_assoc]
      have hs3base : s3.base = s.base := rfl
      have hs3segs : s3.segs = r1.segs := rfl
      have hocc3 : ∀ x, occCount s3 x = occCount r1 x := fun _ => rfl
      have hsz3 : sizeAt s3 (addrOf s i) = merged.size := by
        exact sizeAt_mid s s3 i merged (s.blocks.drop (i + 2)) hs3base hs3blocks
          (fun b hb => hpos b (List.mem_of_mem_take hb))
      have hseglen3 : s3.segs.length = s.segs.length := by
        rw [hs3segs, hr1]
        exact segs_length_remove s1 (addrOf s1 (i + 1))
      have hceq' : coalesce s1 i = (insert_block s3 (addrOf s1 i), addrOf s1 i) := hceq
      refine ⟨insert_block s3 (addrOf s1 i), by rw [hfree, hfa, hceq'], ?_, ?_, ?_, ?_, ?_, ?_⟩
      · -- no adjacent free
        rw [blocks_insert_block, hs3blocks]
        refine noAdjFree_surgery s.blocks i (i + 2) merged (by omega) (by omega) hadj
          hleft ?_
        by_cases h2 : i + 2 < s.blocks.length
        · right
          have := noAdjFree_pairs hadj (i + 1) (by omega)
          rcases this with h | h
          · rw [hnfree] at h
            exact absurd h (by simp)
          · exact h
        · exact Or.inl (by omega)
      · refine ⟨merged, ?_, rfl, by rw [hmsize, hms]⟩
        rw [hma, lookupB_insert_block]
        exact lookupB_mid s s3 i merged (s.blocks.drop (i + 2)) hs3base hs3blocks
          (fun b hb => hpos b (List.mem_of_mem_take hb))
      · rw [hma, ← haddr1 i, occCount_insert_self s3 (addrOf s1 i)
          (by rw [hseglen3]; exact hglilt _), haddr1 i, hocc3,
          hoccRne (addrOf s i) (Ne.symm hanene), hoccP]
      · intro h
        exact Bool.noConfusion h
      · intro _
        rw [hma, hp]
      · intro _
        rw [occCount_insert_ne s3 (addrOf s1 i) (addrOf s (i + 1))
          (by rw [haddr1 i]; exact hanene) (by rw [hseglen3]; exact hglilt _),
          hocc3, hoccR]
  | true =>
    -- previous neighbour free
    have hi0 : i ≠ 0 := ((prevFreeB_iff s i).mp hpf).1
    have hpfree : (s.blocks.getD (i - 1) defaultB).alloc = false :=
      ((prevFreeB_iff s i).mp hpf).2
    have hpa : (if i = 0 then true else (s1.blocks.getD (i - 1) defaultB).alloc) = false := by
      rw [if_neg hi0, hgetD1ne (i - 1) (by omega)]
      exact hpfree
    have hi1 : i - 1 < s.blocks.length := by omega
    have hoccPrev : occCount s (addrOf s (i - 1)) = 1 := ((hwfB (i - 1) hi1).2.1 hpfree).1
    have hmemPrev : addrOf s (i - 1) ∈ bucket s
        (get_list_index (s.blocks.getD (i - 1) defaultB).size) :=
      ((hwfB (i - 1) hi1).2.1 hpfree).2
    have hszPrev : sizeAt s1 (addrOf s (i - 1)) = (s.blocks.getD (i - 1) defaultB).size := by
      rw [hsz1 (i - 1) hi1, hgetD1ne (i - 1) (by omega)]
    have hapne : addrOf s (i - 1) ≠ addrOf s i := by
      have := addrOf_strict s (i - 1) i (by omega) hi1 hpos
      omega
    have hma : mergedAddr s i = addrOf s (i - 1) := by
      simp [mergedAddr, hpf]
    have hleft : i - 1 = 0 ∨ (s.blocks.getD (i - 1 - 1) defaultB).alloc = true := by
      by_cases h0 : i - 1 = 0
      · exact Or.inl h0
      · right
        have := noAdjFree_pairs hadj (i - 2) (by omega)
        rw [show i - 2 + 1 = i - 1 from by omega] at this
        rcases this with h | h
        · rw [show i - 1 - 1 = i - 2 from by omega]
          exact h
        · rw [hpfree] at h
          exact absurd h (by simp)
    set r1 : Heap := remove_block s1 (addrOf s1 (i - 1)) with hr1
    have hoccR : occCount r1 (addrOf s (i - 1)) = 0 := by
      rw [hr1, haddr1 (i - 1), occCount_remove_self s1 (addrOf s (i - 1))
        (by rw [hseglen1]; exact hglilt _)
        (by rw [hszPrev, hbucket1]; exact hmemPrev), hocc1, hoccPrev]
    have hoccRne : ∀ x, x ≠ addrOf s (i - 1) → occCount r1 x = occCount s x := by
      intro x hx
      rw [hr1, haddr1 (i - 1), occCount_remove_ne s1 (addrOf s (i - 1)) x hx
        (by rw [hseglen1]; exact hglilt _), hocc1]
    cases hnf : nextFreeB s i with
    | false =>
      -- case 3: only the previous block free
      have hright : s.blocks.length ≤ i + 1 ∨ (s.blocks.getD (i + 1) defaultB).alloc
          = true := (nextFreeB_false_iff s i).mp hnf
      have hna : (if i + 1 < s1.blocks.length then (s1.blocks.getD (i + 1) defaultB).alloc
          else true) = true := by
        rw [hn]
        by_cases hlt : i + 1 < s.blocks.length
        · rw [if_pos hlt, hgetD1ne (i + 1) (by omega)]
          rcases hright with h | h
          · omega
          · exact h
        · rw [if_neg hlt]
      have hceq := coalesce_eq_case3 s1 i hpa hna
      have hms : mergedSize s i
          = (s.blocks.getD (i - 1) defaultB).size + (s.blocks.getD i defaultB).size := by
        simp [mergedSize, hpf, hnf]
      set merged : Block := ⟨(s1.blocks.getD (i - 1) defaultB).size
          + (s1.blocks.getD i defaultB).size, false,
          mergeData (s1.blocks.getD (i - 1) defaultB) (s1.blocks.getD i defaultB)⟩
        with hmerged
      set s3 : Heap := { r1 with
        blocks := s1.blocks.take (i - 1) ++ [merged] ++ s1.blocks.drop (i + 1) } with hs3
      have hmsize : merged.size
          = (s.blocks.getD (i - 1) defaultB).size + (s.blocks.getD i defaultB).size := by
        show (s1.blocks.getD (i - 1) defaultB).size + (s1.blocks.getD i defaultB).size = _
        rw [hgetD1i, hgetD1ne (i - 1) (by omega), hb1]
      have hs3blocks : s3.blocks
          = s.blocks.take (i - 1) ++ merged :: s.blocks.drop (i + 1) := by
        show s1.blocks.take (i - 1) ++ [merged] ++ s1.blocks.drop (i + 1) = _
        rw [hs1blocks, take_set_le (by omega), List.drop_set_of_lt b1 s.blocks (by omega)]
        simp [List.append_assoc]
      have hs3base : s3.base = s.base := rfl
      have hocc3 : ∀ x, occCount s3 x = occCount r1 x := fun _ => rfl
      have hseglen3 : s3.segs.length = s.segs.length := by
        rw [show s3.segs = r1.segs from rfl, hr1]
        exact segs_length_remove s1 (addrOf s1 (i - 1))
      refine ⟨insert_block s3 (addrOf s1 (i - 1)), by rw [hfree, hfa, hceq], ?_, ?_, ?_,
        ?_, ?_, ?_⟩
      · rw [blocks_insert_block, hs3blocks]
        exact noAdjFree_surgery s.blocks (i - 1) (i + 1) merged (by omega) (by omega) hadj
          hleft hright
      · refine ⟨merged, ?_, rfl, by rw [hmsize, hms]⟩
        rw [hma, lookupB_insert_block]
        exact lookupB_mid s s3 (i - 1) merged (s.blocks.drop (i + 1)) hs3base hs3blocks
          (fun b hb => hpos b (List.mem_of_mem_take hb))
      · rw [hma, ← haddr1 (i - 1), occCount_insert_self s3 (addrOf s1 (i - 1))
          (by rw [hseglen3]; exact hglilt _), haddr1 (i - 1), hocc3, hoccR]
      · intro _
        refine ⟨hma, ?_⟩
        rw [hp, ← haddr1 i, occCount_insert_ne s3 (addrOf s1 (i - 1)) (addrOf s1 i)
          (by rw [haddr1 i, haddr1 (i - 1)]; exact Ne.symm hapne)
          (by rw [hseglen3]; exact hglilt _), haddr1 i, hocc3,
          hoccRne (addrOf s i) (Ne.symm hapne), hoccP]
      · intro h
        exact Bool.noConfusion h
      · intro h
        exact Bool.noConfusion h
    | true =>
      -- case 4: both neighbours free
      have hnlt : i + 1 < s.blocks.length := ((nextFreeB_iff s i).mp hnf).1
      have hnfree : (s.blocks.getD (i + 1) defaultB).alloc = false :=
        ((nextFreeB_iff s i).mp hnf).2
      have hna : (if i + 1 < s1.blocks.length then (s1.blocks.getD (i + 1) defaultB).alloc
          else true) = false := by
        rw [hn, if_pos hnlt, hgetD1ne (i + 1) (by omega)]
        exact hnfree
      have hceq := coalesce_eq_case4 s1 i hpa hna
      have hms : mergedSize s i = (s.blocks.getD (i - 1) defaultB).size
          + (s.blocks.getD i defaultB).size + (s.blocks.getD (i + 1) defaultB).size := by
        simp [mergedSize, hpf, hnf]
      have hoccN : occCount s (addrOf s (i + 1)) = 1 := ((hwfB (i + 1) hnlt).2.1 hnfree).1
      have hmemN : addrOf s (i + 1) ∈ bucket s
          (get_list_index (s.blocks.getD (i + 1) defaultB).size) :=
        ((hwfB (i + 1) hnlt).2.1 hnfree).2
      have hszN : sizeAt s1 (addrOf s (i + 1)) = (s.blocks.getD (i + 1) defaultB).size := by
        rw [hsz1 (i + 1) hnlt, hgetD1ne (i + 1) (by omega)]
      have hanene : addrOf s (i + 1) ≠ addrOf s i := by
        have := addrOf_strict s i (i + 1) (by omega) hi hpos
        omega
      have hapnne : addrOf s (i - 1) ≠ addrOf s (i + 1) := by
        have := addrOf_strict s (i - 1) (i + 1) (by omega) hi1 hpos
        omega
      set r2 : Heap := remove_block r1 (addrOf r1 (i + 1)) with hr2
      have haddrR : ∀ j, addrOf r1 j = addrOf s j := by
        intro j
        rw [hr1, show addrOf (remove_block s1 (addrOf s1 (i - 1))) j = addrOf s1 j from rfl,
          haddr1 j]
      have hszR : sizeAt r1 (addrOf s (i + 1)) = (s.blocks.getD (i + 1) defaultB).size := by
        rw [hr1, show sizeAt (remove_block s1 (addrOf s1 (i - 1))) (addrOf s (i + 1))
          = sizeAt s1 (addrOf s (i + 1)) from rfl, hszN]
      have hseglenR : r1.segs.length = s.segs.length := by
        rw [hr1]
        exact segs_length_remove s1 (addrOf s1 (i - 1))
      have hoccR2 : occCount r2 (addrOf s (i + 1)) = 0 := by
        rw [hr2, haddrR (i + 1), occCount_remove_self r1 (addrOf s (i + 1))
          (by rw [hseglenR]; exact hglilt _)
          (by
            rw [hszR]
            refine mem_bucket_remove s1 (addrOf s1 (i - 1)) (addrOf s (i + 1)) _ ?_ ?_
            · rw [haddr1 (i - 1)]
              exact hapnne.symm
            · rw [hbucket1]
              exact hmemN),
          hoccRne (addrOf s (i + 1)) (Ne.symm hapnne), hoccN]
      have hoccR2ne : ∀ x, x ≠ addrOf s (i + 1) → occCount r2 x = occCount r1 x := by
        intro x hx
        rw [hr2, haddrR (i + 1), occCount_remove_ne r1 (addrOf s (i + 1)) x hx
          (by rw [hseglenR]; exact hglilt _)]
      set m1 : Block := ⟨(s1.blocks.getD (i - 1) defaultB).size
          + (s1.blocks.getD i defaultB).size, false,
          mergeData (s1.blocks.getD (i - 1) defaultB) (s1.blocks.getD i defaultB)⟩
        with hm1
      set merged : Block := ⟨(s1.blocks.getD (i - 1) defaultB).size
          + (s1.blocks.getD i defaultB).size + (s1.blocks.getD (i + 1) defaultB).size,
          false, mergeData m1 (s1.blocks.getD (i + 1) defaultB)⟩ with hmerged
      set s3 : Heap := { r2 with
        blocks := s1.blocks.take (i - 1) ++ [merged] ++ s1.blocks.drop (i + 2) } with hs3
      have hmsize : merged.size = (s.blocks.getD (i - 1) defaultB).size
          + (s.blocks.getD i defaultB).size + (s.blocks.getD (i + 1) defaultB).size := by
        show (s1.blocks.getD (i - 1) defaultB).size + (s1.blocks.getD i defaultB).size
          + (s1.blocks.getD (i + 1) defaultB).size = _
        rw [hgetD1i, hgetD1ne (i - 1) (by omega), hgetD1ne (i + 1) (by omega), hb1]
      have hs3blocks : s3.blocks
          = s.blocks.take (i - 1) ++ merged :: s.blocks.drop (i + 2) := by
        show s1.blocks.take (i - 1) ++ [merged] ++ s1.blocks.drop (i + 2) = _
        rw [hs1blocks, take_set_le (by omega), List.drop_set_of_lt b1 s.blocks (by omega)]
        simp [List.append_assoc]
      have hs3base : s3.base = s.base := rfl
      have hocc3 : ∀ x, occCount s3 x = occCount r2 x := fun _ => rfl
      have hseglen3 : s3.segs.length = s.segs.length := by
        rw [show s3.segs = r2.segs from rfl, hr2]
        rw [show (remove_block r1 (addrOf r1 (i + 1))).segs.length = r1.segs.length from
          segs_length_remove r1 (addrOf r1 (i + 1)), hseglenR]
      have hright : s.blocks.length ≤ i + 2 ∨ (s.blocks.getD (i + 2) defaultB).alloc
          = true := by
        by_cases h2 : i + 2 < s.blocks.length
        · right
          have := noAdjFree_pairs hadj (i + 1) (by omega)
          rcases this with h | h
          · rw [hnfree] at h
            exact absurd h (by simp)
          · exact h
        · exact Or.inl (by omega)
      refine ⟨insert_block s3 (addrOf s1 (i - 1)),
        by rw [hfree, hfa, hceq]; rfl, ?_, ?_, ?_, ?_, ?_, ?_⟩
      · rw [blocks_insert_block, hs3blocks]
        exact noAdjFree_surgery s.blocks (i - 1) (i + 2) merged (by omega) (by omega) hadj
          hleft hright
      · refine ⟨merged, ?_, rfl, by rw [hmsize, hms]⟩
        rw [hma, lookupB_insert_block]
        exact lookupB_mid s s3 (i - 1) merged (s.blocks.drop (i + 2)) hs3base hs3blocks
          (fun b hb => hpos b (List.mem_of_mem_take hb))
      · rw [hma, ← haddr1 (i - 1), occCount_insert_self s3 (addrOf s1 (i - 1))
          (by rw [hseglen3]; exact hglilt _), haddr1 (i - 1), hocc3,
          hoccR2ne (addrOf s (i - 1)) hapnne, hoccR]
      · intro _
        refine ⟨hma, ?_⟩
        rw [hp, ← haddr1 i, occCount_insert_ne s3 (addrOf s1 (i - 1)) (addrOf s1 i)
          (by rw [haddr1 i, haddr1 (i - 1)]; exact Ne.symm hapne)
          (by rw [hseglen3]; exact hglilt _), haddr1 i, hocc3,
          hoccR2ne (addrOf s i) (Ne.symm hanene), hoccRne (addrOf s i) (Ne.symm hapne),
          hoccP]
      · intro h
        exact Bool.noConfusion h
      · intro _
        rw [← haddr1 (i + 1), occCount_insert_ne s3 (addrOf s1 (i - 1)) (addrOf s1 (i + 1))
          (by rw [haddr1 (i + 1), haddr1 (i - 1)]; exact Ne.symm hapnne)
          (by rw [hseglen3]; exact hglilt _), haddr1 (i + 1), hocc3, hoccR2]

theorem c2_release_no_adjacent_free_witness :
    ∃ s', mm_free sM1 48 = some s' ∧ noAdjFree s'.blocks ∧
      (∃ m, lookupB s' (mergedAddr sM1 0) = some m ∧ m.alloc = false ∧
        m.size = mergedSize sM1 0) ∧
      occCount s' (mergedAddr sM1 0) = 1 ∧
      (prevFreeB sM1 0 = true → mergedAddr sM1 0 = addrOf sM1 (0 - 1) ∧
        occCount s' 48 = 0) ∧
      (prevFreeB sM1 0 = false → mergedAddr sM1 0 = 48) ∧
      (nextFreeB sM1 0 = true → occCount s' (addrOf sM1 (0 + 1)) = 0) :=
  c2_release_no_adjacent_free sM1 48 0 (by decide) (by decide) (by decide)

/-- C7 (amended): resize with new_size = 0 behaves exactly as release of
the pointer and returns null, for every pointer and state; and for every
new_size > 0, resize with a NULL pointer is exactly allocate(new_size),
same return value and same state effect. -/
theorem c7_resize_aliases :
    (∀ s p, mm_realloc s p 0 = (mm_free s p).map (fun s' => (s', none))) ∧
    (∀ s n, 0 < n → mm_realloc s 0 n = mm_malloc s n) := by
  constructor
  · intro s p
    rfl
  · intro s n hn
    simp [mm_realloc, hn.ne']

theorem c7_resize_aliases_witness :
    mm_realloc sInit 48 0 = (mm_free sInit 48).map (fun s' => (s', none)) ∧
    mm_realloc sInit 0 24 = mm_malloc sInit 24 :=
  ⟨c7_resize_aliases.1 sInit 48, c7_resize_aliases.2 sInit 24 (by norm_num)⟩

lemma coalesce_brk (s : Heap) (i : Nat) : ((coalesce s i).1).brk = s.brk := by
  cases hpa : (if i = 0 then true else (s.blocks.getD (i - 1) defaultB).alloc) with
  | true =>
    cases hna : (if i + 1 < s.blocks.length then (s.blocks.getD (i + 1) defaultB).alloc
        else true) with
    | true =>
      rw [coalesce_eq_case1 s i hpa hna]
      rfl
    | false =>
      rw [coalesce_eq_case2 s i hpa hna]
      rfl
  | false =>
    cases hna : (if i + 1 < s.blocks.length then (s.blocks.getD (i + 1) defaultB).alloc
        else true) with
    | true =>
      rw [coalesce_eq_case3 s i hpa hna]
      rfl
    | false =>
      rw [coalesce_eq_case4 s i hpa hna]
      rfl

/-- C9: extend_heap rounds the word count up to an even number and
requests exactly that many * 8 bytes of heap growth.  When the growth
primitive fails (the request exceeds capacity) it returns failure with
the state — blocks, bucket lists, break — completely unchanged.  On
success the grown span becomes a single free block of exactly the
requested byte count appended at the end of the block sequence (the
epilogue stays past it), the break advances by exactly the requested
bytes, and the result is exactly what the coalescer returns on that new
block; the returned block's size is at least the requested span. -/
theorem c9_extend_heap (s : Heap) (words : Nat) :
    (s.cap < s.brk + evenWords words * 8 → extend_heap s words = (s, none)) ∧
    (s.brk + evenWords words * 8 ≤ s.cap →
      ∃ s' bp, extend_heap s words = (s', some bp) ∧
        (s', bp) = coalesce { s with
            brk := s.brk + evenWords words * 8
            blocks := s.blocks ++ [⟨evenWords words * 8, false, fun _ => 0⟩] }
          s.blocks.length ∧
        s'.brk = s.brk + evenWords words * 8 ∧
        ((∀ b ∈ s.blocks, 0 < b.size) → 0 < words →
          evenWords words * 8 ≤ sizeAt s' bp)) := by
  constructor
  · intro h
    simp only [extend_heap]
    rw [if_pos h]
  · intro h
    have hif : extend_heap s words =
        ((coalesce { s with
            brk := s.brk + evenWords words * 8
            blocks := s.blocks ++ [⟨evenWords words * 8, false, fun _ => 0⟩] }
          s.blocks.length).1,
         some (coalesce { s with
            brk := s.brk + evenWords words * 8
            blocks := s.blocks ++ [⟨evenWords words * 8, false, fun _ => 0⟩] }
          s.blocks.length).2) := by
      simp only [extend_heap]
      rw [if_neg (not_lt.mpr h)]
    refine ⟨_, _, hif, rfl, coalesce_brk _ _, ?_⟩
    intro hpos hw
    have hew : 0 < evenWords words := by
      unfold evenWords
      split <;> omega
    have hpos' : ∀ b ∈ (s.blocks ++ [(⟨evenWords words * 8, false, fun _ => 0⟩ : Block)]),
        0 < b.size := by
      intro b hb
      rcases List.mem_append.mp hb with hb | hb
      · exact hpos b hb
      · have hbe : b = ⟨evenWords words * 8, false, fun _ => 0⟩ := List.mem_singleton.mp hb
        subst hbe
        exact Nat.mul_pos hew (by norm_num)
    have hi : s.blocks.length <
        (s.blocks ++ [(⟨evenWords words * 8, false, fun _ => 0⟩ : Block)]).length := by
      simp
    have hle := coalesce_size_ge { s with
        brk := s.brk + evenWords words * 8
        blocks := s.blocks ++ [⟨evenWords words * 8, false, fun _ => 0⟩] }
      s.blocks.length hi hpos'
    have hsz : ((s.blocks ++ [(⟨evenWords words * 8, false, fun _ => 0⟩ : Block)]).getD
        s.blocks.length defaultB).size = evenWords words * 8 := by
      rw [getD_append_len]
    exact le_trans (le_of_eq hsz.symm) hle

lemma InvA_mk (s : Heap) (hb : s.base % 16 = 0) (hs : ∀ b ∈ s.blocks, b.size % 16 = 0) :
    InvA s := ⟨hb, hs⟩

lemma sumSizes_mod16 (l : List Block) (h : ∀ b ∈ l, b.size % 16 = 0) :
    sumSizes l % 16 = 0 := by
  induction l with
  | nil => rfl
  | cons b rest ih =>
    have hb := h b (List.mem_cons_self b rest)
    have hr := ih (fun x hx => h x (List.mem_cons_of_mem b hx))
    rw [sumSizes_cons]
    omega

lemma addrOf_mod16 (s : Heap) (i : Nat) (h : InvA s) : addrOf s i % 16 = 0 := by
  obtain ⟨hb, hs⟩ := h
  have ht : sumSizes (s.blocks.take i) % 16 = 0 :=
    sumSizes_mod16 _ (fun b hbm => hs b (List.mem_of_mem_take hbm))
  unfold addrOf
  omega

lemma getD_size_mod16 (l : List Block) (h : ∀ b ∈ l, b.size % 16 = 0) (j : Nat) :
    (l.getD j defaultB).size % 16 = 0 := by
  rcases Nat.lt_or_ge j l.length with hj | hj
  · rw [getD_eq_get l j defaultB hj]
    exact h _ (List.getElem_mem hj)
  · have hd : l.getD j defaultB = defaultB := by
      simp [List.getD, List.getElem?_eq_none hj]
    rw [hd]
    rfl

lemma InvA_coalesce (s : Heap) (i : Nat) (h : InvA s) : InvA (coalesce s i).1 := by
  obtain ⟨hb, hs⟩ := h
  cases hpa : (if i = 0 then true else (s.blocks.getD (i - 1) defaultB).alloc) with
  | true =>
    cases hna : (if i + 1 < s.blocks.length then (s.blocks.getD (i + 1) defaultB).alloc
        else true) with
    | true =>
      rw [coalesce_eq_case1 s i hpa hna]
      exact InvA_mk _ hb hs
    | false =>
      rw [coalesce_eq_case2 s i hpa hna]
      apply InvA_mk
      · exact hb
      · intro b hbm
        replace hbm : b ∈ s.blocks.take i ++
            [(⟨(s.blocks.getD i defaultB).size + (s.blocks.getD (i + 1) defaultB).size, false,
              mergeData (s.blocks.getD i defaultB) (s.blocks.getD (i + 1) defaultB)⟩ : Block)] ++
            s.blocks.drop (i + 2) := hbm
        rcases List.mem_append.mp hbm with hbm | hbm
        · rcases List.mem_append.mp hbm with hbm | hbm
          · exact hs b (List.mem_of_mem_take hbm)
          · have hbe := List.mem_singleton.mp hbm
            subst hbe
            have h1 := getD_size_mod16 s.blocks hs i
            have h2 := getD_size_mod16 s.blocks hs (i + 1)
            show ((s.blocks.getD i defaultB).size + (s.blocks.getD (i + 1) defaultB).size)
              % 16 = 0
            omega
        · exact hs b (List.mem_of_mem_drop hbm)
  | false =>
    cases hna : (if i + 1 < s.blocks.length then (s.blocks.getD (i + 1) defaultB).alloc
        else true) with
    | true =>
      rw [coalesce_eq_case3 s i hpa hna]
      apply InvA_mk
      · exact hb
      · intro b hbm
        replace hbm : b ∈ s.blocks.take (i - 1) ++
            [(⟨(s.blocks.getD (i - 1) defaultB).size + (s.blocks.getD i defaultB).size, false,
              mergeData (s.blocks.getD (i - 1) defaultB) (s.blocks.getD i defaultB)⟩ : Block)] ++
            s.blocks.drop (i + 1) := hbm
        rcases List.mem_append.mp hbm with hbm | hbm
        · rcases List.mem_append.mp hbm with hbm | hbm
          · exact hs b (List.mem_of_mem_take hbm)
          · have hbe := List.mem_singleton.mp hbm
            subst hbe
            have h1 := getD_size_mod16 s.blocks hs (i - 1)
            have h2 := getD_size_mod16 s.blocks hs i
            show ((s.blocks.getD (i - 1) defaultB).size + (s.blocks.getD i defaultB).size)
              % 16 = 0
            omega
        · exact hs b (List.mem_of_mem_drop hbm)
    | false =>
      rw [coalesce_eq_case4 s i hpa hna]
      apply InvA_mk
      · exact hb
      · intro b hbm
        replace hbm : b ∈ s.blocks.take (i - 1) ++
            [(⟨(s.blocks.getD (i - 1) defaultB).size + (s.blocks.getD i defaultB).size
                + (s.blocks.getD (i + 1) defaultB).size, false,
              mergeData ⟨(s.blocks.getD (i - 1) defaultB).size + (s.blocks.getD i defaultB).size,
                  false, mergeData (s.blocks.getD (i - 1) defaultB) (s.blocks.getD i defaultB)⟩
                (s.blocks.getD (i + 1) defaultB)⟩ : Block)] ++
            s.blocks.drop (i + 2) := hbm
        rcases List.mem_append.mp hbm with hbm | hbm
        · rcases List.mem_append.mp hbm with hbm | hbm
          · exact hs b (List.mem_of_mem_take hbm)
          · have hbe := List.mem_singleton.mp hbm
            subst hbe
            have h1 := getD_size_mod16 s.blocks hs (i - 1)
            have h2 := getD_size_mod16 s.blocks hs i
            have h3 := getD_size_mod16 s.blocks hs (i + 1)
            show ((s.blocks.getD (i - 1) defaultB).size + (s.blocks.getD i defaultB).size
              + (s.blocks.getD (i + 1) defaultB).size) % 16 = 0
            omega
        · exact hs b (List.mem_of_mem_drop hbm)

lemma InvA_place (s : Heap) (i asize : Nat) (ha : asize % 16 = 0) (h : InvA s) :
    InvA (place s i asize) := by
  obtain ⟨hb, hs⟩ := h
  by_cases hsp : 32 ≤ sub64 (s.blocks.getD i defaultB).size asize
  · rw [place_eq_split s i asize hsp]
    apply InvA_mk
    · exact hb
    · intro b hbm
      replace hbm : b ∈ s.blocks.take i ++
          [(⟨asize, true, (s.blocks.getD i defaultB).data⟩ : Block),
           ⟨(s.blocks.getD i defaultB).size - asize, false,
             fun k => (s.blocks.getD i defaultB).data (asize + k)⟩] ++
          s.blocks.drop (i + 1) := hbm
      rcases List.mem_append.mp hbm with hbm | hbm
      · rcases List.mem_append.mp hbm with hbm | hbm
        · exact hs b (List.mem_of_mem_take hbm)
        · rcases List.mem_cons.mp hbm with hbe | hbm
          · subst hbe
            exact ha
          · have hbe := List.mem_singleton.mp hbm
            subst hbe
            have h1 := getD_size_mod16 s.blocks hs i
            show ((s.blocks.getD i defaultB).size - asize) % 16 = 0
            omega
      · exact hs b (List.mem_of_mem_drop hbm)
  · rw [place_eq_nosplit s i asize hsp]
    apply InvA_mk
    · exact hb
    · intro b hbm
      replace hbm : b ∈ s.blocks.set i ⟨(s.blocks.getD i defaultB).size, true,
          (s.blocks.getD i defaultB).data⟩ := hbm
      rcases List.mem_or_eq_of_mem_set hbm with hbm | hbe
      · exact hs b hbm
      · subst hbe
        exact getD_size_mod16 s.blocks hs i

lemma InvA_extend_heap (s : Heap) (w : Nat) (h : InvA s) : InvA (extend_heap s w).1 := by
  by_cases hc : s.cap < s.brk + evenWords w * 8
  · have hif : extend_heap s w = (s, none) := by
      simp only [extend_heap]
      rw [if_pos hc]
    rw [hif]
    exact h
  · have hif : extend_heap s w =
        ((coalesce { s with
            brk := s.brk + evenWords w * 8
            blocks := s.blocks ++ [⟨evenWords w * 8, false, fun _ => 0⟩] }
          s.blocks.length).1,
         some (coalesce { s with
            brk := s.brk + evenWords w * 8
            blocks := s.blocks ++ [⟨evenWords w * 8, false, fun _ => 0⟩] }
          s.blocks.length).2) := by
      simp only [extend_heap]
      rw [if_neg hc]
    rw [hif]
    apply InvA_coalesce
    apply InvA_mk
    · exact h.1
    · intro b hbm
      replace hbm : b ∈ s.blocks ++ [(⟨evenWords w * 8, false, fun _ => 0⟩ : Block)] := hbm
      rcases List.mem_append.mp hbm with hbm | hbm
      · exact h.2 b hbm
      · have hbe := List.mem_singleton.mp hbm
        subst hbe
        have hev : evenWords w % 2 = 0 := by
          unfold evenWords
          split <;> omega
        show evenWords w * 8 % 16 = 0
        omega

lemma InvA_freeAt (s : Heap) (i : Nat) (h : InvA s) : InvA (freeAt s i) := by
  obtain ⟨hb, hs⟩ := h
  show InvA (coalesce (Heap.mk s.base s.brk s.cap (s.blocks.set i
    ⟨(s.blocks.getD i defaultB).size, false, (s.blocks.getD i defaultB).data⟩) s.segs) i).1
  apply InvA_coalesce
  apply InvA_mk
  · exact hb
  · intro b hbm
    replace hbm : b ∈ s.blocks.set i
        ⟨(s.blocks.getD i defaultB).size, false, (s.blocks.getD i defaultB).data⟩ := hbm
    rcases List.mem_or_eq_of_mem_set hbm with hbm | hbe
    · exact hs b hbm
    · subst hbe
      exact getD_size_mod16 s.blocks hs i

lemma mm_free_InvA (s : Heap) (p : Nat) (s' : Heap) (h : InvA s)
    (hm : mm_free s p = some s') : InvA s' := by
  rcases Option.map_eq_some'.mp hm with ⟨i, _, hfa⟩
  subst hfa
  exact InvA_freeAt s i h

lemma mm_malloc_InvA (s : Heap) (size : Nat) (s' : Heap) (r : Option Nat)
    (h : InvA s) (hm : mm_malloc s size = some (s', r)) :
    InvA s' ∧ ∀ p, r = some p → p % 16 = 0 := by
  by_cases h0 : size = 0
  · simp only [mm_malloc, if_pos h0] at hm
    replace hm : some (s, (none : Option Nat)) = some (s', r) := hm
    injection hm with hm
    injection hm with hm1 hm2
    subst hm1
    subst hm2
    exact ⟨h, fun p hp => Option.noConfusion hp⟩
  · simp only [mm_malloc, if_neg h0] at hm
    cases hff : find_fit s (codeAsize size) with
    | some bp =>
      rw [hff] at hm
      replace hm : (idxOfAddr s bp).map
          (fun i => (place s i (codeAsize size), some bp)) = some (s', r) := hm
      rcases Option.map_eq_some'.mp hm with ⟨i, hio, heq⟩
      injection heq with hm1 hm2
      subst hm1
      subst hm2
      refine ⟨InvA_place s i (codeAsize size) (codeAsize_mod16 size) h, ?_⟩
      intro p hp
      injection hp with hp
      subst hp
      obtain ⟨_, hbp⟩ := idxOfAddr_some_imp s bp i hio
      rw [hbp]
      exact addrOf_mod16 s i h
    | none =>
      rw [hff] at hm
      replace hm : (match extend_heap s (max (codeAsize size) 4096 / 8) with
        | (s2, none) => some (s2, none)
        | (s2, some bp) => (idxOfAddr s2 bp).map
            (fun i => (place s2 i (codeAsize size), some bp))) = some (s', r) := hm
      cases hex : extend_heap s (max (codeAsize size) 4096 / 8) with
      | mk s2 ob =>
        rw [hex] at hm
        have h2 : InvA s2 := by
          have := InvA_extend_heap s (max (codeAsize size) 4096 / 8) h
          rw [hex] at this
          exact this
        cases ob with
        | none =>
          replace hm : some (s2, (none : Option Nat)) = some (s', r) := hm
          injection hm with hm
          injection hm with hm1 hm2
          subst hm1
          subst hm2
          exact ⟨h2, fun p hp => Option.noConfusion hp⟩
        | some bp =>
          replace hm : (idxOfAddr s2 bp).map
              (fun i => (place s2 i (codeAsize size), some bp)) = some (s', r) := hm
          rcases Option.map_eq_some'.mp hm with ⟨i, hio, heq⟩
          injection heq with hm1 hm2
          subst hm1
          subst hm2
          refine ⟨InvA_place s2 i (codeAsize size) (codeAsize_mod16 size) h2, ?_⟩
          intro p hp
          injection hp with hp
          subst hp
          obtain ⟨_, hbp⟩ := idxOfAddr_some_imp s2 bp i hio
          rw [hbp]
          exact addrOf_mod16 s2 i h2

lemma memcpyB_InvA (s : Heap) (dst src n : Nat) (s' : Heap) (h : InvA s)
    (hm : memcpyB s dst src n = some s') : InvA s' := by
  obtain ⟨hb, hs⟩ := h
  unfold memcpyB at hm
  cases hj : idxOfAddr s dst with
  | none =>
    rw [hj] at hm
    replace hm : (none : Option Heap) = some s' := hm
    exact Option.noConfusion hm
  | some j =>
    cases hsrc : lookupB s src with
    | none =>
      rw [hj, hsrc] at hm
      replace hm : (none : Option Heap) = some s' := hm
      exact Option.noConfusion hm
    | some bsrc =>
      rw [hj, hsrc] at hm
      replace hm : some (Heap.mk s.base s.brk s.cap (s.blocks.set j
          ⟨(s.blocks.getD j defaultB).size, (s.blocks.getD j defaultB).alloc,
            fun k => if k < n then bsrc.data k else (s.blocks.getD j defaultB).data k⟩) s.segs)
          = some s' := hm
      injection hm with hm
      subst hm
      apply InvA_mk
      · exact hb
      · intro b hbm
        replace hbm : b ∈ s.blocks.set j
            ⟨(s.blocks.getD j defaultB).size, (s.blocks.getD j defaultB).alloc,
              fun k => if k < n then bsrc.data k else (s.blocks.getD j defaultB).data k⟩ := hbm
        rcases List.mem_or_eq_of_mem_set hbm with hbm | hbe
        · exact hs b hbm
        · subst hbe
          exact getD_size_mod16 s.blocks hs j

lemma mm_realloc_InvA (s : Heap) (ptr size : Nat) (s' : Heap) (r : Option Nat)
    (h : InvA s) (hm : mm_realloc s ptr size = some (s', r)) :
    InvA s' ∧ ∀ p, r = some p → p % 16 = 0 := by
  by_cases h0 : size = 0
  · simp only [mm_realloc, if_pos h0] at hm
    rcases Option.map_eq_some'.mp hm with ⟨s1, hf, heq⟩
    injection heq with hm1 hm2
    subst hm1
    subst hm2
    exact ⟨mm_free_InvA s ptr s1 h hf, fun p hp => Option.noConfusion hp⟩
  · simp only [mm_realloc, if_neg h0] at hm
    by_cases hp0 : ptr = 0
    · rw [if_pos hp0] at hm
      exact mm_malloc_InvA s size s' r h hm
    · rw [if_neg hp0] at hm
      cases hmal : mm_malloc s size with
      | none =>
        rw [hmal] at hm
        replace hm : (none : Option (Heap × Option Nat)) = some (s', r) := hm
        exact Option.noConfusion hm
      | some pr =>
        obtain ⟨s1, ob⟩ := pr
        rw [hmal] at hm
        obtain ⟨h1, hret⟩ := mm_malloc_InvA s size s1 ob h hmal
        cases ob with
        | none =>
          replace hm : some (s1, (none : Option Nat)) = some (s', r) := hm
          injection hm with hm
          injection hm with hm1 hm2
          subst hm1
          subst hm2
          exact ⟨h1, fun p hp => Option.noConfusion hp⟩
        | some np =>
          replace hm : (match memcpyB s1 np ptr
              (if size < sizeAt s1 ptr - 16 then size else sizeAt s1 ptr - 16) with
            | none => none
            | some s2 => (mm_free s2 ptr).map (fun s3 => (s3, some np)))
              = some (s', r) := hm
          cases hcp : memcpyB s1 np ptr
              (if size < sizeAt s1 ptr - 16 then size else sizeAt s1 ptr - 16) with
          | none =>
            rw [hcp] at hm
            replace hm : (none : Option (Heap × Option Nat)) = some (s', r) := hm
            exact Option.noConfusion hm
          | some s2 =>
            rw [hcp] at hm
            replace hm : (mm_free s2 ptr).map (fun s3 => (s3, some np)) = some (s', r) := hm
            rcases Option.map_eq_some'.mp hm with ⟨s3, hf3, heq⟩
            injection heq with hm1 hm2
            subst hm1
            subst hm2
            refine ⟨mm_free_InvA s2 ptr s3 (memcpyB_InvA s1 np ptr _ s2 h1 hcp) hf3, ?_⟩
            intro p hp
            injection hp with hp
            subst hp
            exact hret np rfl

lemma step_InvA (s : Heap) (op : Op) (s' : Heap) (r : Option Nat)
    (h : InvA s) (hm : step s op = some (s', r)) :
    InvA s' ∧ ∀ p, r = some p → p % 16 = 0 := by
  cases op with
  | malloc n => exact mm_malloc_InvA s n s' r h hm
  | free a =>
    replace hm : (mm_free s a).map (fun s1 => (s1, (none : Option Nat))) = some (s', r) := hm
    rcases Option.map_eq_some'.mp hm with ⟨s1, hf, heq⟩
    injection heq with hm1 hm2
    subst hm1
    subst hm2
    exact ⟨mm_free_InvA s a s1 h hf, fun p hp => Option.noConfusion hp⟩
  | realloc a n => exact mm_realloc_InvA s a n s' r h hm

lemma runGo_InvA (ops : List Op) : ∀ s s' rets, InvA s →
    runGo s ops = some (s', rets) → InvA s' ∧ ∀ p ∈ rets, p % 16 = 0 := by
  induction ops with
  | nil =>
    intro s s' rets h hr
    replace hr : some (s, ([] : List Nat)) = some (s', rets) := hr
    injection hr with hr
    injection hr with hr1 hr2
    subst hr1
    subst hr2
    exact ⟨h, fun p hp => absurd hp (List.not_mem_nil p)⟩
  | cons op rest ih =>
    intro s s' rets h hr
    replace hr : (match step s op with
      | none => none
      | some (s1, ret) => (runGo s1 rest).map (fun q => (q.1, ret.toList ++ q.2)))
        = some (s', rets) := hr
    cases hst : step s op with
    | none =>
      rw [hst] at hr
      replace hr : (none : Option (Heap × List Nat)) = some (s', rets) := hr
      exact Option.noConfusion hr
    | some pr =>
      obtain ⟨s1, ret⟩ := pr
      rw [hst] at hr
      replace hr : (runGo s1 rest).map (fun q => (q.1, ret.toList ++ q.2))
          = some (s', rets) := hr
      rcases Option.map_eq_some'.mp hr with ⟨q, hrg, heq⟩
      obtain ⟨s2, rets2⟩ := q
      injection heq with hm1 hm2
      subst hm1
      subst hm2
      obtain ⟨h1, h2⟩ := step_InvA s op s1 ret h hst
      obtain ⟨h3, h4⟩ := ih s1 s2 rets2 h1 hrg
      refine ⟨h3, ?_⟩
      intro p hp
      rcases List.mem_append.mp hp with hp | hp
      · cases ret with
        | none => exact absurd hp (List.not_mem_nil p)
        | some qq =>
          have hpq : p = qq := List.mem_singleton.mp hp
          subst hpq
          exact h2 p rfl
      · exact h4 p hp

lemma mm_init_InvA (base cap : Nat) (s0 : Heap) (hb : base % 16 = 0)
    (h : mm_init base cap = some s0) : InvA s0 := by
  by_cases hc : cap < base + 32
  · simp only [mm_init, if_pos hc] at h
    exact Option.noConfusion h
  · simp only [mm_init, if_neg hc] at h
    have hI : InvA (⟨base, base + 32, cap, [], List.replicate 10 []⟩ : Heap) :=
      ⟨hb, fun b hbm => absurd hbm (List.not_mem_nil b)⟩
    cases hex : extend_heap ⟨base, base + 32, cap, [], List.replicate 10 []⟩ (4096 / 8) with
    | mk s1 ob =>
      rw [hex] at h
      cases ob with
      | none =>
        replace h : (none : Option Heap) = some s0 := h
        exact Option.noConfusion h
      | some bp =>
        replace h : some s1 = some s0 := h
        injection h with h
        subst h
        have := InvA_extend_heap ⟨base, base + 32, cap, [], List.replicate 10 []⟩ (4096 / 8) hI
        rw [hex] at this
        exact this

/-- C6: in any driver run (init, then any sequence of allocate, release
and resize requests), every collected non-null returned pointer is a
multiple of 16, provided the heap base granted by the memory system is
16-byte aligned.  The run also maintains the alignment invariant InvA —
padding plus prologue occupy 32 bytes, so payloads start at base + 32,
and every block size stays a multiple of 16 — which is what makes each
returned payload address base + 32 + (sum of earlier block sizes)
16-byte aligned. -/
theorem c6_alignment (base cap : Nat) (ops : List Op) (s : Heap) (rets : List Nat)
    (hb : base % 16 = 0) (h : runOps base cap ops = some (s, rets)) :
    InvA s ∧ ∀ p ∈ rets, p % 16 = 0 := by
  rcases Option.bind_eq_some.mp h with ⟨s0, hinit, hrun⟩
  exact runGo_InvA ops s0 s rets (mm_init_InvA base cap s0 hb hinit) hrun

theorem c6_alignment_witness :
    InvA wRun.1 ∧ ∀ p ∈ wRun.2, p % 16 = 0 :=
  c6_alignment 16 16000 [Op.malloc 24, Op.malloc 100] wRun.1 wRun.2 (by decide) rfl

theorem c9_extend_heap_witness :
    extend_heap sInit 2000 = (sInit, none) ∧
    (∃ s' bp, extend_heap sInit 628 = (s', some bp) ∧
      (s', bp) = coalesce { sInit with
          brk := sInit.brk + evenWords 628 * 8
          blocks := sInit.blocks ++ [⟨evenWords 628 * 8, false, fun _ => 0⟩] }
        sInit.blocks.length ∧
      s'.brk = sInit.brk + evenWords 628 * 8 ∧
      ((∀ b ∈ sInit.blocks, 0 < b.size) → 0 < 628 →
        evenWords 628 * 8 ≤ sizeAt s' bp)) :=
  ⟨(c9_extend_heap sInit 2000).1 (by decide), (c9_extend_heap sInit 628).2 (by decide)⟩

end MM
